import Mathlib

/-!
# Verification of the zettelkasten-mcp core

A shallow embedding of the note data model, the SQLite-backed repository
(`storage/sqlite_repository.py`), the markdown codec
(`export_import/exporter.py`, `export_import/importer.py`) and the
migration parser (`migration/migrate_to_sqlite.py`), together with proofs
about them.

Text is modelled line-wise: a file or a note body is a `List String` of
lines (no line contains a newline character); joining with `"\n"` is the
bijection to the flat Python string.  String primitives used by the code
(`str.strip`, `str.split`, `str.startswith`, substring tests,
`", ".join`) are defined here from first principles on `String.data` so
that they can be reasoned about by induction.
-/

namespace Zettel

/-! ## String primitives (models of the Python `str` methods used) -/

/-- Model of Python `str.strip()` on the left: drop leading whitespace. -/
def trimL (s : String) : String := ⟨s.data.dropWhile Char.isWhitespace⟩

/-- Model of Python `str.strip()` on the right: drop trailing whitespace. -/
def trimR (s : String) : String := ⟨(s.data.reverse.dropWhile Char.isWhitespace).reverse⟩

/-- Model of Python `str.strip()`: drop whitespace on both ends. -/
def trimS (s : String) : String := trimR (trimL s)

/-- A line is blank when it consists of whitespace only (`line.strip() == ""`). -/
def isBlank (s : String) : Bool := s.data.all Char.isWhitespace

/-- Boolean list-prefix test (model of Python `str.startswith` on char lists). -/
def isPre : List Char → List Char → Bool
  | [], _ => true
  | _ :: _, [] => false
  | p :: ps, c :: cs => p == c && isPre ps cs

/-- Model of Python `str.startswith(pat)`. -/
def startsWithS (s pat : String) : Bool := isPre pat.data s.data

/-- Split a char list at the first occurrence of `pat`, returning the parts
before and after it, or `none` when `pat` does not occur. -/
def splitFirstCh (pat : List Char) : List Char → Option (List Char × List Char)
  | [] => if isPre pat [] then some ([], ([] : List Char).drop pat.length) else none
  | c :: cs =>
    if isPre pat (c :: cs) then some ([], (c :: cs).drop pat.length)
    else (splitFirstCh pat cs).map (fun p => (c :: p.1, p.2))

/-- Model of Python `s.split(pat, 1)` (when `pat` occurs): the part before the
first occurrence of `pat` and the part after it. -/
def splitFirstS (s pat : String) : Option (String × String) :=
  (splitFirstCh pat.data s.data).map (fun p => (⟨p.1⟩, ⟨p.2⟩))

/-- Model of Python `pat in s` (substring containment). -/
def containsSub (s pat : String) : Bool := (splitFirstCh pat.data s.data).isSome

/-- Split a char list at every occurrence of the separator character
(model of Python `str.split(",")`; always returns at least one group). -/
def splitChar (sep : Char) : List Char → List (List Char)
  | [] => [[]]
  | c :: cs =>
    match splitChar sep cs with
    | [] => [[]]
    | g :: gs => if c == sep then [] :: g :: gs else (c :: g) :: gs

/-- Model of Python `s.split(",")`. -/
def splitCommaS (s : String) : List String := (splitChar ',' s.data).map (fun cs => ⟨cs⟩)

/-- Model of Python `", ".join(names)`. -/
def joinComma : List String → String
  | [] => ""
  | [n] => n
  | n :: ns => n ++ ", " ++ joinComma ns

/-! ## Lines: model of whole-text operations

A text is a nonempty list of lines; `stripLines` is the model of Python
`text.strip()` in that representation: leading blank lines (and leading
whitespace of the first remaining line) and trailing blank lines (and
trailing whitespace of the last remaining line) disappear.  The line list
`[""]` represents the empty text. -/

/-- Trim the right end of the last line of a list of lines. -/
def trimLastR : List String → List String
  | [] => []
  | [x] => [trimR x]
  | x :: xs => x :: trimLastR xs

/-- Model of Python `text.strip()` on the line representation of a text. -/
def stripLines (ls : List String) : List String :=
  let a := ls.dropWhile isBlank
  let b := (a.reverse.dropWhile isBlank).reverse
  match b with
  | [] => [""]
  | x :: xs => trimLastR (trimL x :: xs)

/-- `pat` occurs in the flat text of the lines `ls` (for a pattern without
newlines this is containment in some line); model of Python `pat in text`. -/
def linesContain (ls : List String) (pat : String) : Bool :=
  ls.any (fun l => containsSub l pat)

/-! ## Timestamps

Timestamps are modelled as natural numbers; `isofmt`/`fromiso` model
`datetime.isoformat()` and `datetime.fromisoformat()` as an injective
rendering to decimal digits with its partial-inverse parser (`fromiso`
fails exactly on strings the renderer cannot produce, as the Python
parser raises on malformed input). -/

/-- The decimal digit character for `d % 10`. -/
def digCh (d : Nat) : Char :=
  match d % 10 with
  | 0 => '0' | 1 => '1' | 2 => '2' | 3 => '3' | 4 => '4'
  | 5 => '5' | 6 => '6' | 7 => '7' | 8 => '8' | _ => '9'

/-- Little-endian digit list of a natural number (empty for 0). -/
def natDigitsAux : Nat → List Nat
  | 0 => []
  | n + 1 => ((n + 1) % 10) :: natDigitsAux ((n + 1) / 10)
decreasing_by exact Nat.div_lt_self (Nat.succ_pos n) (by omega)

/-- Decimal rendering of a natural number. -/
def natToStr (n : Nat) : String :=
  if n = 0 then "0" else ⟨((natDigitsAux n).map digCh).reverse⟩

/-- Value of a decimal digit character. -/
def digVal (c : Char) : Option Nat :=
  if 48 ≤ c.toNat ∧ c.toNat ≤ 57 then some (c.toNat - 48) else none

/-- Left-to-right accumulation of decimal digits. -/
def parseNatAux (acc : Nat) : List Char → Option Nat
  | [] => some acc
  | c :: cs =>
    match digVal c with
    | some d => parseNatAux (acc * 10 + d) cs
    | none => none

/-- Parse a nonempty all-digit string as a natural number. -/
def parseNatS (s : String) : Option Nat :=
  match s.data with
  | [] => none
  | _ => parseNatAux 0 s.data

/-- Model of `datetime.isoformat()` for the abstract timestamps. -/
def isofmt (n : Nat) : String := natToStr n

/-- Model of `datetime.fromisoformat` for the abstract timestamps. -/
def fromiso (s : String) : Option Nat := parseNatS s

/-! ## Data model

Modelled from the spec: the domain value types `Note`, `Tag`, `Link` and
the enumerations `NoteType`, `LinkType` live in `models/schema.py`, which
is not part of the sources at hand; their shape is taken from the spec's
data-model section (§3) and from how the repository, exporter and
importer use them.  Metadata values are restricted to strings (the codec
only ever reads and writes string scalars). -/

/-- Modelled from the spec: the fixed enumeration of note kinds
("e.g. fleeting, literature, permanent"); `permanent` is the base kind. -/
inductive NoteType
  | fleeting
  | literature
  | permanent
deriving DecidableEq, Repr

/-- The `.value` string of a note kind. -/
def NoteType.value : NoteType → String
  | .fleeting => "fleeting"
  | .literature => "literature"
  | .permanent => "permanent"

/-- Model of the enum constructor `NoteType(s)`: `none` plays the role of
the `ValueError` raised on an unknown value. -/
def NoteType.ofString : String → Option NoteType
  | "fleeting" => some .fleeting
  | "literature" => some .literature
  | "permanent" => some .permanent
  | _ => none

/-- Modelled from the spec: the fixed enumeration of link kinds
("reference/extends/contrast/…"); `reference` is the base kind. -/
inductive LinkType
  | reference
  | extends_
  | contrast
deriving DecidableEq, Repr

/-- The `.value` string of a link kind. -/
def LinkType.value : LinkType → String
  | .reference => "reference"
  | .extends_ => "extends"
  | .contrast => "contrast"

/-- Model of the enum constructor `LinkType(s)`: `none` plays the role of
the `ValueError` raised on an unknown value. -/
def LinkType.ofString : String → Option LinkType
  | "reference" => some .reference
  | "extends" => some .extends_
  | "contrast" => some .contrast
  | _ => none

/-- Modelled from the spec: a tag is a name. -/
structure Tag where
  name : String
deriving DecidableEq, Repr

/-- Modelled from the spec: a directed typed link between two notes.
`created_at` is optional (the repository substitutes the write time when
it is absent). -/
structure Link where
  source_id : String
  target_id : String
  link_type : LinkType
  description : Option String
  created_at : Option Nat
deriving DecidableEq, Repr

/-- Modelled from the spec: a note value.  `content` is the body text in
line representation; `metadata` is an open association list of extra
header keys to string values. -/
structure Note where
  id : String
  title : String
  content : List String
  note_type : NoteType
  tags : List Tag
  links : List Link
  created_at : Nat
  updated_at : Nat
  metadata : List (String × String)
deriving DecidableEq, Repr

/-- The flat content string of a note (the lines joined by newlines);
`len(note.content)` in the code is the length of this string. -/
def contentLen (content : List String) : Nat :=
  (String.intercalate "\n" content).length

/-! ## Repository state

The SQLite store is modelled as the list of persisted note rows together
with their tag names and outgoing link rows, in insertion order.  The
per-call session of `SQLiteNoteRepository` becomes a pure state
transformer returning `Except RepoError`. -/

/-- A persisted link row (`links` table): `created_at` is always set. -/
structure StoredLink where
  sourceId : String
  targetId : String
  linkType : LinkType
  description : Option String
  createdAt : Nat
deriving DecidableEq, Repr

/-- A persisted note row together with its tag names and outgoing links. -/
structure StoredNote where
  id : String
  title : String
  content : List String
  noteType : NoteType
  createdAt : Nat
  updatedAt : Nat
  metadata : List (String × String)
  tagNames : List String
  links : List StoredLink
deriving DecidableEq, Repr

/-- The store state: all persisted notes, in insertion order. -/
structure Store where
  notes : List StoredNote
deriving DecidableEq, Repr

/-- The error taxonomy of the single-item repository operations
(`ValueError` with an already-exists / not-found message in the code). -/
inductive RepoError
  | alreadyExists (id : String)
  | notFound (id : String)
deriving DecidableEq, Repr

/-- The ids currently present in the store. -/
def Store.ids (s : Store) : List String := s.notes.map (·.id)

/-- Does a note with this id exist (the `select(DBNote).where(DBNote.id == id)`
existence check)? -/
def Store.idExists (s : Store) (id : String) : Bool := s.notes.any (fun m => m.id == id)

/-- Turn a domain link of note `noteId` into a link row, as `create`/`update`
do: the row's source is the owning note's id and a missing `created_at`
is replaced by the current time (`link.created_at or datetime.now()`). -/
def toStoredLink (noteId : String) (now : Nat) (l : Link) : StoredLink :=
  ⟨noteId, l.target_id, l.link_type, l.description, l.created_at.getD now⟩

/-- `SQLiteNoteRepository._db_note_to_note`: convert a row back to a domain
note. -/
def dbNoteToNote (m : StoredNote) : Note :=
  ⟨m.id, m.title, m.content, m.noteType, m.tagNames.map Tag.mk,
    m.links.map (fun l => ⟨l.sourceId, l.targetId, l.linkType, l.description, some l.createdAt⟩),
    m.createdAt, m.updatedAt, m.metadata⟩

/-- `SQLiteNoteRepository.create`: fail when the id exists; otherwise insert
the note row (the flush makes it visible), then keep exactly the links
whose target id exists at that point (the freshly inserted note
included), silently dropping the rest. -/
def Store.create (s : Store) (now : Nat) (item : Note) : Except RepoError (Store × Note) :=
  if s.idExists item.id then
    .error (.alreadyExists item.id)
  else
    let idsAfterFlush := item.id :: s.ids
    let kept := item.links.filter (fun l => idsAfterFlush.contains l.target_id)
    let row : StoredNote :=
      ⟨item.id, item.title, item.content, item.note_type, item.created_at, item.updated_at,
        item.metadata, item.tags.map (·.name), kept.map (toStoredLink item.id now)⟩
    .ok (⟨s.notes ++ [row]⟩, dbNoteToNote row)

/-- `SQLiteNoteRepository.read` (and its alias `get`): `none` on a miss. -/
def Store.read (s : Store) (id : String) : Option Note :=
  (s.notes.find? (fun m => m.id == id)).map dbNoteToNote

/-- `SQLiteNoteRepository.update`: fail when the id is absent; otherwise
replace title/content/kind/metadata, stamp `updated_at` with the current
time (discarding the supplied value), keep `created_at`, fully replace
the tag set, and fully replace the outgoing links filtered by the
target-exists check against the current store. -/
def Store.update (s : Store) (now : Nat) (item : Note) : Except RepoError (Store × Note) :=
  if s.idExists item.id then
    let kept := item.links.filter (fun l => s.ids.contains l.target_id)
    let upd : List StoredNote := s.notes.map (fun m =>
      if m.id == item.id then
        ⟨m.id, item.title, item.content, item.note_type, m.createdAt, now,
          item.metadata, item.tags.map (·.name), kept.map (toStoredLink item.id now)⟩
      else m)
    match (upd.find? (fun m => m.id == item.id)).map dbNoteToNote with
    | some n => .ok (⟨upd⟩, n)
    | none => .error (.notFound item.id)
  else
    .error (.notFound item.id)

/-- `SQLiteNoteRepository.delete`: fail when the id is absent; otherwise
remove the note.  Modelled from the spec: the store's referential
cleanup (the cascade configured in `db_models_sqlite.py`, not among the
sources) also removes link rows of both directions, so links targeting
the removed id disappear from the remaining notes. -/
def Store.delete (s : Store) (id : String) : Except RepoError Store :=
  if s.idExists id then
    .ok ⟨(s.notes.filter (fun m => ¬ m.id == id)).map
      (fun m => { m with links := m.links.filter (fun l => ¬ l.targetId == id) })⟩
  else
    .error (.notFound id)

/-- The descending-`updated_at` ordering used by `order_by(DBNote.updated_at.desc())`. -/
def updatedDesc (a b : StoredNote) : Prop := b.updatedAt ≤ a.updatedAt

instance : DecidableRel updatedDesc := fun a b => Nat.decLe b.updatedAt a.updatedAt

/-- `SQLiteNoteRepository.list`: filter by optional kind and tag, order by
most-recently-updated first, paginate (`LIMIT limit OFFSET offset`). -/
def Store.list (s : Store) (limit : Nat) (offset : Nat)
    (noteType : Option String) (tag : Option String) : List Note :=
  let f1 := match noteType with
    | some t => s.notes.filter (fun m => m.noteType.value == t)
    | none => s.notes
  let f2 := match tag with
    | some t => f1.filter (fun m => m.tagNames.contains t)
    | none => f1
  (((List.insertionSort updatedDesc f2).drop offset).take limit).map dbNoteToNote

/-! ## The search operation and SQL `LIKE`

`search` interpolates the query into a `%query%` pattern and matches it
with SQLite's case-insensitive `LIKE` (`ilike`).  `likeMatches` models
the standard `LIKE` semantics: `%` matches any sequence, `_` matches any
single character, every other character matches itself up to case. -/

/-- SQL `LIKE` pattern matching on char lists, case-insensitively
(model of SQLAlchemy `ilike`, no escape character). -/
def likeMatches : List Char → List Char → Bool
  | [], [] => true
  | '%' :: ps, [] => likeMatches ps []
  | _ :: _, [] => false
  | [], _ :: _ => false
  | '%' :: ps, c :: cs => likeMatches ps (c :: cs) || likeMatches ('%' :: ps) cs
  | '_' :: ps, _ :: cs => likeMatches ps cs
  | p :: ps, c :: cs => (p.toLower == c.toLower) && likeMatches ps cs
termination_by ps cs => (ps.length, cs.length)

/-- `ilike(f"%{query}%")` on a string field: the query is interpolated
into the pattern without any escaping. -/
def ilikeField (query : String) (field : String) : Bool :=
  likeMatches ("%" ++ query ++ "%").data field.data

/-- The disjunction of search conditions built by `SQLiteNoteRepository.search`
for one note row: title match, content match, or membership in the
tag-match subquery (some tag of the note matches). -/
def searchCond (query : String) (st sc stg : Bool) (m : StoredNote) : Bool :=
  (st && ilikeField query m.title)
    || (sc && ilikeField query (String.intercalate "\n" m.content))
    || (stg && m.tagNames.any (fun t => ilikeField query t))

/-- `SQLiteNoteRepository.search`: empty when no field flag is enabled,
otherwise the matching notes ordered by most-recently-updated first,
truncated to `limit`. -/
def Store.search (s : Store) (query : String) (st sc stg : Bool) (limit : Nat) : List Note :=
  if ¬ st ∧ ¬ sc ∧ ¬ stg then []
  else
    ((List.insertionSort updatedDesc (s.notes.filter (searchCond query st sc stg))).take
      limit).map dbNoteToNote

/-! ## Link validation (`MarkdownImporter.validate_links`) -/

/-- `MarkdownImporter.validate_links`: load all notes (through
`repository.list(limit=10000)`), build the set of known ids, and record
under each note id the list of its link targets that are not known ids.
The result models the returned dict as an association list in note
iteration order. -/
def validateLinks (s : Store) : List (String × List String) :=
  let allNotes := s.list 10000 0 none none
  let noteIds := allNotes.map (·.id)
  allNotes.foldl (fun acc note =>
    let broken := (note.links.filter (fun l => ¬ noteIds.contains l.target_id)).map (·.target_id)
    if broken.isEmpty then acc else acc ++ [(note.id, broken)]) []

/-- The dangling link targets of one stored note against the store's ids
(the `broken` list `validate_links` computes for it). -/
def brokenTargets (s : Store) (m : StoredNote) : List String :=
  (m.links.filter (fun l => ¬ s.ids.contains l.targetId)).map (·.targetId)

/-! ## The markdown codec

The `frontmatter` library is external; it is modelled here restricted to
string scalar values: `fmDumps` renders a sorted `key: value` header
block between `---` delimiter lines followed by a blank line and the
body (the `yaml.dump` key sorting and its quoting of the empty string as
`''` are reproduced; other quoting situations are excluded by the
well-formedness hypotheses of the round-trip theorems), and `fmSplit`
parses that shape back, stripping the content as the library does. -/

/-- The reserved header keys consumed by the codec. -/
def reservedKeys : List String := ["id", "title", "type", "tags", "created", "updated"]

/-- The two migration-bookkeeping keys the exporter never passes through. -/
def migrationKeys : List String := ["migrated_from", "migration_date"]

/-- Render a header value as a yaml plain scalar; the empty string becomes `''`. -/
def renderVal (v : String) : String := if v == "" then "''" else v

/-- Parse a header scalar: `''` denotes the empty string. -/
def parseVal (v : String) : String := if v == "''" then "" else v

/-- Render one `key: value` header line. -/
def renderLine (p : String × String) : String := p.1 ++ ": " ++ renderVal p.2

/-- Parse one `key: value` header line (lines without a `: ` separator are
not key/value pairs and are dropped). -/
def parseHeaderLine (l : String) : Option (String × String) :=
  (splitFirstS l ": ").map (fun p => (trimS p.1, parseVal (trimS p.2)))

/-- Parse a header block into an association list. -/
def parseHeader (ls : List String) : List (String × String) := ls.filterMap parseHeaderLine

/-- First-match association-list lookup (model of `dict.get`). -/
def lookupKV (k : String) : List (String × String) → Option String
  | [] => none
  | p :: ps => if p.1 == k then some p.2 else lookupKV k ps

/-- Code-point lexicographic comparison of char lists: the Python string
order (`sort_keys` compares strings by unicode code points). -/
def lexLE : List Char → List Char → Bool
  | [], _ => true
  | _ :: _, [] => false
  | a :: as, b :: bs => if a == b then lexLE as bs else decide (a.toNat < b.toNat)

/-- Python string `<=`. -/
def strLE (a b : String) : Bool := lexLE a.data b.data

/-- The ordering `yaml.dump` sorts header entries by: key order, with the
value breaking ties. -/
def pairLE (a b : String × String) : Prop :=
  if a.1 = b.1 then strLE a.2 b.2 = true else strLE a.1 b.1 = true

instance : DecidableRel pairLE := fun a b => by
  unfold pairLE; infer_instance

/-- `frontmatter.dumps`: delimiters, sorted header lines, a blank line,
then the body. -/
def fmDumps (meta : List (String × String)) (body : List String) : List String :=
  "---" :: (List.insertionSort pairLE meta).map renderLine ++ ["---", ""] ++ body

/-- Split off everything before the first `---` line. -/
def splitAtDelim : List String → Option (List String × List String)
  | [] => none
  | l :: ls =>
    if l == "---" then some ([], ls)
    else (splitAtDelim ls).map (fun p => (l :: p.1, p.2))

/-- `frontmatter.loads`: when the text starts with a `---` line and a closing
`---` line exists, the lines between them are the header and the
remainder, stripped, is the content; otherwise the header is empty and
the whole text, stripped, is the content. -/
def fmSplit (lines : List String) : List (String × String) × List String :=
  match lines with
  | "---" :: rest =>
    match splitAtDelim rest with
    | some (hdr, after) => (parseHeader hdr, stripLines after)
    | none => ([], stripLines lines)
  | _ => ([], stripLines lines)

/-- `MarkdownExporter.export_note_to_markdown`'s frontmatter dict: the six
reserved entries, then every extra metadata entry whose key is not
already present and is not a migration-bookkeeping key. -/
def exportMeta (note : Note) : List (String × String) :=
  let base := [("id", note.id), ("title", note.title), ("type", note.note_type.value),
    ("tags", joinComma (note.tags.map (·.name))),
    ("created", isofmt note.created_at), ("updated", isofmt note.updated_at)]
  note.metadata.foldl (fun acc p =>
    if acc.any (fun q => q.1 == p.1) || migrationKeys.contains p.1 then acc
    else acc ++ [p]) base

/-- One generated Links-section bullet:
`- <kind> [[<target>]]` followed by the description when it is nonempty. -/
def linkLine (l : Link) : String :=
  let base := "- " ++ l.link_type.value ++ " [[" ++ l.target_id ++ "]]"
  match l.description with
  | some d => if d == "" then base else base ++ " " ++ d
  | none => base

/-- `MarkdownExporter.export_note_to_markdown`'s body: the stripped content,
plus a generated Links section when the note has links and the content
does not already contain `## Links`. -/
def exportBody (note : Note) : List String :=
  stripLines note.content ++
    (if ¬ note.links.isEmpty ∧ ¬ linesContain note.content "## Links" then
      ["", "## Links"] ++ note.links.map linkLine
    else [])

/-- `MarkdownExporter.export_note_to_markdown` (line representation of the
produced text). -/
def export_note_to_markdown (note : Note) : List String :=
  fmDumps (exportMeta note) (exportBody note)

/-! ## The markdown importer -/

/-- A markdown file: its name stem and its text as lines. -/
structure MDFile where
  stem : String
  lines : List String
deriving DecidableEq, Repr

/-- The file's display name (`<stem>.md`), used in warning messages. -/
def fileName (f : MDFile) : String := f.stem ++ ".md"

/-- The timestamp extraction pattern of both parsers: an absent or falsy
(empty) header value falls back, any other value goes through
`fromisoformat`, whose failure (`none`) raises in the Python code. -/
def tsParse (v : Option String) (fallback : Nat) : Option Nat :=
  match v with
  | none => some fallback
  | some s => if s == "" then some fallback else fromiso s

/-- `MarkdownImporter._extract_links_from_content`, parsing one candidate
bullet line inside the Links section. -/
def parseLinkLine (now : Nat) (sourceId : String) (l : String) : Option Link :=
  if containsSub l "[[" ∧ containsSub l "]]" then
    match splitFirstS l "[[" with
    | none => none
    | some (row, after) =>
      let lts0 := trimS row
      let lts := if startsWithS lts0 "- " then trimS ⟨lts0.data.drop 2⟩ else lts0
      let td : String × Option String :=
        match splitFirstS after "]]" with
        | some (t, rest) => (trimS t, some (trimS rest))
        | none => (trimS after, none)
      some ⟨sourceId, td.1, (LinkType.ofString lts).getD .reference, td.2, some now⟩
  else none

/-- The line scan of `_extract_links_from_content`: a `## Links` heading
opens the section, any other `## ` heading closes it, and bullet lines
inside it become links (malformed ones are skipped). -/
def extractLinksAux (now : Nat) (sourceId : String) : Bool → List String → List Link
  | _, [] => []
  | inSection, rawLine :: rest =>
    let line := trimS rawLine
    if startsWithS line "## Links" then extractLinksAux now sourceId true rest
    else if inSection ∧ startsWithS line "## " then extractLinksAux now sourceId false rest
    else if inSection ∧ startsWithS line "- " then
      match parseLinkLine now sourceId line with
      | some l => l :: extractLinksAux now sourceId true rest
      | none => extractLinksAux now sourceId true rest
    else extractLinksAux now sourceId inSection rest

/-- `MarkdownImporter._extract_links_from_content`. -/
def extract_links_from_content (now : Nat) (sourceId : String) (content : List String) :
    List Link :=
  extractLinksAux now sourceId false content

/-- `MarkdownImporter.parse_note_from_markdown`: `none` plus the recorded
warnings when the file is rejected (no id, or an unparsable timestamp
raising inside the surrounding try/except), otherwise the parsed note. -/
def parse_note_from_markdown (now : Nat) (f : MDFile) : Option Note × List String :=
  let fm := fmSplit f.lines
  let meta := fm.1
  let content := fm.2
  let idv := (lookupKV "id" meta).getD ""
  if idv == "" then (none, ["No ID in " ++ fileName f ++ ", skipping"])
  else
    let typeRes : NoteType × List String :=
      match lookupKV "type" meta with
      | none => (.permanent, [])
      | some ts =>
        match NoteType.ofString ts with
        | some t => (t, [])
        | none => (.permanent,
            ["Invalid note type '" ++ ts ++ "' in " ++ fileName f ++ ", using PERMANENT"])
    let tagsStr := (lookupKV "tags" meta).getD ""
    let tagNames := ((splitCommaS tagsStr).map trimS).filter (fun t => ¬ t == "")
    let links := extract_links_from_content now idv content
    let createdRes : Option Nat := tsParse (lookupKV "created" meta) now
    match createdRes with
    | none => (none, typeRes.2 ++ ["Failed to parse " ++ fileName f ++ ": invalid isoformat"])
    | some created =>
      let updatedRes : Option Nat := tsParse (lookupKV "updated" meta) created
      match updatedRes with
      | none => (none, typeRes.2 ++ ["Failed to parse " ++ fileName f ++ ": invalid isoformat"])
      | some updated =>
        let extra := meta.filter (fun p => ¬ reservedKeys.contains p.1)
        (some ⟨idv, (lookupKV "title" meta).getD ("Untitled Note " ++ idv), content,
          typeRes.1, tagNames.map Tag.mk, links, created, updated, extra⟩,
        typeRes.2)

/-- A header timestamp value is absent, empty (both fall back) or parsable —
the condition under which the parsers do not raise on it. -/
def tsOk (v : Option String) : Bool := (tsParse v 0).isSome

/-- The running counters of `MarkdownImporter.import_stats`. -/
structure ImportStats where
  total_files : Nat
  imported : Nat
  updated : Nat
  skipped : Nat
  failed : Nat
  warnings : List String
deriving DecidableEq, Repr

/-- Fresh import statistics. -/
def ImportStats.init : ImportStats := ⟨0, 0, 0, 0, 0, []⟩

/-- `MarkdownImporter.import_single_file`: parse, then skip / update /
create depending on existence and the flag; a parse failure counts as
failed and the run continues. -/
def import_single_file (now : Nat) (f : MDFile) (updateExisting : Bool)
    (s : Store) (stats : ImportStats) : Store × ImportStats × Bool :=
  let parsed := parse_note_from_markdown now f
  let stats1 := { stats with warnings := stats.warnings ++ parsed.2 }
  match parsed.1 with
  | none => (s, { stats1 with failed := stats1.failed + 1 }, false)
  | some note =>
    match s.read note.id with
    | some _ =>
      if updateExisting then
        match s.update now note with
        | .ok (s', _) => (s', { stats1 with updated := stats1.updated + 1 }, true)
        | .error _ =>
          (s, { { stats1 with failed := stats1.failed + 1 } with
            warnings := stats1.warnings ++ ["Failed to import " ++ fileName f] }, false)
      else (s, { stats1 with skipped := stats1.skipped + 1 }, true)
    | none =>
      match s.create now note with
      | .ok (s', _) => (s', { stats1 with imported := stats1.imported + 1 }, true)
      | .error _ =>
        (s, { { stats1 with failed := stats1.failed + 1 } with
          warnings := stats1.warnings ++ ["Failed to import " ++ fileName f] }, false)

/-- `MarkdownImporter.import_directory` without the display layer: filter
out files whose name starts with `_`, record the total, and import each
file in order (a failing file never stops the run). -/
def import_directory (now : Nat) (files : List MDFile) (updateExisting : Bool)
    (s : Store) (stats : ImportStats) : Store × ImportStats :=
  let mdFiles := files.filter (fun f => ¬ startsWithS (fileName f) "_")
  let stats1 := { stats with total_files := mdFiles.length }
  mdFiles.foldl (fun acc f =>
    let r := import_single_file now f updateExisting acc.1 acc.2
    (r.1, r.2.1)) (s, stats1)

/-! ## Merge (`BulkImporter.merge_imports`) -/

/-- Python `max(l, key=f)` as a fold over the remaining elements: a later
element replaces the current best only when strictly greater, so the
first of several maximal elements wins. -/
def pyMaxBy {α : Type} (key : α → Nat) (v : α) (vs : List α) : α :=
  vs.foldl (fun best x => if key best < key x then x else best) v

/-- Python `min(l, key=f)`: the first of several minimal elements wins. -/
def pyMinBy {α : Type} (key : α → Nat) (v : α) (vs : List α) : α :=
  vs.foldl (fun best x => if key x < key best then x else best) v

/-- The conflict-resolution step of `merge_imports` for one id's version
list (in encounter order): `newest`/`oldest` compare the parsed
`updated_at`, `largest` compares the flat content length, and any other
strategy (`first` included) takes the first encountered version. -/
def selectVersion (strategy : String) (vs : List (Note × String)) : Option (Note × String) :=
  match vs with
  | [] => none
  | v :: rest =>
    if strategy == "newest" then some (pyMaxBy (fun x => x.1.updated_at) v rest)
    else if strategy == "oldest" then some (pyMinBy (fun x => x.1.updated_at) v rest)
    else if strategy == "largest" then some (pyMaxBy (fun x => contentLen x.1.content) v rest)
    else some v

/-- Group parsed notes by id in first-encounter order, versions kept in
encounter order (the `all_notes` dict of `merge_imports`). -/
def groupVersions (parsed : List (Note × String)) : List (String × List (Note × String)) :=
  parsed.foldl (fun acc nv =>
    if acc.any (fun g => g.1 == nv.1.id) then
      acc.map (fun g => if g.1 == nv.1.id then (g.1, g.2 ++ [nv]) else g)
    else acc ++ [(nv.1.id, [nv])]) []

/-- The result counters of `merge_imports`. -/
structure MergeStats where
  total_files : Nat
  unique_notes : Nat
  conflicts : Nat
  imported : Nat
  failed : Nat
deriving DecidableEq, Repr

/-- `BulkImporter.merge_imports`: parse every (non-underscore) file of every
directory in directory-list order then file order, group versions by id,
select one version per id by the strategy, and create-or-update each
selected note into the repository. -/
def merge_imports (now : Nat) (dirs : List (List MDFile)) (strategy : String)
    (s : Store) : Store × MergeStats :=
  let allFiles := (dirs.map (fun d => d.filter (fun f => ¬ startsWithS (fileName f) "_"))).flatten
  let parsed := allFiles.filterMap (fun f =>
    ((parse_note_from_markdown now f).1).map (fun n => (n, fileName f)))
  let groups := groupVersions parsed
  let notesToImport := groups.filterMap (fun g => (selectVersion strategy g.2).map (·.1))
  let conflicts := (groups.filter (fun g => 1 < g.2.length)).length
  let final := notesToImport.foldl (fun acc note =>
    match (acc.1 : Store).read note.id with
    | some _ =>
      match acc.1.update now note with
      | .ok (s', _) => (s', acc.2.1 + 1, acc.2.2)
      | .error _ => (acc.1, acc.2.1, acc.2.2 + 1)
    | none =>
      match acc.1.create now note with
      | .ok (s', _) => (s', acc.2.1 + 1, acc.2.2)
      | .error _ => (acc.1, acc.2.1, acc.2.2 + 1)) (s, 0, 0)
  (final.1, ⟨allFiles.length, groups.length, conflicts, final.2.1, final.2.2⟩)

/-! ## The migration parser (`MarkdownToSQLiteMigrator.parse_note_from_markdown`) -/

/-- The first `# ` heading line's text in a body, if any. -/
def firstHeading : List String → Option String
  | [] => none
  | l :: ls =>
    if startsWithS l "# " then some (trimS ⟨l.data.drop 2⟩) else firstHeading ls

/-- `MarkdownToSQLiteMigrator.parse_note_from_markdown`: unlike the
importer's parser, a missing id falls back to the file name stem, a
missing title falls back to the first level-1 heading of the body and
then to `Untitled Note <id>`, and missing timestamps fall back to the
file's creation/modification times (`ctime`, `mtime`).  Returns the note
(or `none` when a timestamp fails to parse, modelling the raised
exception) together with the warnings recorded up to that point. -/
def mig_parse_note_from_markdown (f : MDFile) (ctime mtime now : Nat) :
    Option Note × List String :=
  let fm := fmSplit f.lines
  let meta := fm.1
  let content := fm.2
  let idRes : String × List String :=
    match lookupKV "id" meta with
    | none =>
      (f.stem, ["No ID in frontmatter for " ++ fileName f ++ ", using filename: " ++ f.stem])
    | some v =>
      if v == "" then
        (f.stem, ["No ID in frontmatter for " ++ fileName f ++ ", using filename: " ++ f.stem])
      else (v, [])
  let note_id := idRes.1
  let titleRes : String × List String :=
    let fromHeader := (lookupKV "title" meta).getD ""
    if fromHeader == "" then
      let derived := ((firstHeading (stripLines content)).getD "")
      if derived == "" then
        ("Untitled Note " ++ note_id,
          ["No title found for " ++ fileName f ++ ", using: Untitled Note " ++ note_id])
      else (derived, [])
    else (fromHeader, [])
  let typeRes : NoteType × List String :=
    match lookupKV "type" meta with
    | none => (.permanent, [])
    | some ts =>
      match NoteType.ofString ts with
      | some t => (t, [])
      | none => (.permanent,
          ["Invalid note type '" ++ ts ++ "' for " ++ fileName f ++ ", defaulting to PERMANENT"])
  let warns := idRes.2 ++ titleRes.2 ++ typeRes.2
  let tagsStr := (lookupKV "tags" meta).getD ""
  let tagNames := ((splitCommaS tagsStr).map trimS).filter (fun t => ¬ t == "")
  let links := extract_links_from_content now note_id content
  let createdRes : Option Nat := tsParse (lookupKV "created" meta) ctime
  match createdRes with
  | none => (none, warns)
  | some created =>
    let updatedRes : Option Nat := tsParse (lookupKV "updated" meta) mtime
    match updatedRes with
    | none => (none, warns)
    | some updated =>
      let extra := (meta.filter (fun p =>
        ¬ reservedKeys.contains p.1 ∧ ¬ migrationKeys.contains p.1)) ++
        [("migrated_from", fileName f), ("migration_date", isofmt now)]
      (some ⟨note_id, titleRes.1, content, typeRes.1, tagNames.map Tag.mk, links,
        created, updated, extra⟩, warns)

/-! ## Well-formedness for the codec round trips

The round-trip theorems restrict attention to notes whose field values
are representable in the plain line-based header/body format: no
newlines inside values, values and tag names already stripped, and no
characters that collide with the `key: value`, comma-list or
`[[target]]` syntax. -/

/-- The first character exists and is not whitespace. -/
def headNonWS (s : String) : Bool :=
  match s.data.head? with
  | some c => ¬ c.isWhitespace
  | none => false

/-- The last character exists and is not whitespace. -/
def lastNonWS (s : String) : Bool :=
  match s.data.reverse.head? with
  | some c => ¬ c.isWhitespace
  | none => false

/-- A header key the line parser recovers: no colon, no newline, stripped. -/
def plainKey (k : String) : Bool :=
  k.data.all (fun c => ¬ c == ':' && ¬ c == '\n') && trimS k == k

/-- A header value the line parser recovers: stripped, not the quoted
empty-string form, no newline. -/
def plainValue (v : String) : Bool :=
  trimS v == v && ¬ v == "''" && v.data.all (fun c => ¬ c == '\n')

/-- A tag name that survives the comma join/split round trip. -/
def plainTagName (t : String) : Bool :=
  ¬ t == "" && ¬ t == "''" && trimS t == t
    && t.data.all (fun c => ¬ c == ',' && ¬ c == '\n')

/-- A link whose generated bullet line parses back to it: the target has no
brackets or newline and is stripped; a description, when present, is
nonempty, stripped and free of brackets and newlines. -/
def wfLink (l : Link) : Bool :=
  (trimS l.target_id == l.target_id
      && l.target_id.data.all (fun c => ¬ c == '[' && ¬ c == ']' && ¬ c == '\n'))
    && (match l.description with
      | none => true
      | some d => ¬ d == "" && trimS d == d
          && d.data.all (fun c => ¬ c == '[' && ¬ c == ']' && ¬ c == '\n'))

/-- The content starts and ends with non-whitespace (so `text.strip()`
leaves it alone even with material appended after it). -/
def contentReady (ls : List String) : Bool :=
  headNonWS (ls.headD "") && lastNonWS (ls.getLastD "")

/-- The well-formedness condition of the codec round-trip theorems. -/
def wfNote (N : Note) : Prop :=
  plainValue N.id = true ∧ ¬ N.id = ""
    ∧ plainValue N.title = true
    ∧ (∀ t ∈ N.tags, plainTagName t.name = true)
    ∧ (∀ l ∈ N.links, wfLink l = true)
    ∧ (∀ p ∈ N.metadata, plainKey p.1 = true ∧ plainValue p.2 = true
        ∧ ¬ reservedKeys.contains p.1 = true ∧ ¬ migrationKeys.contains p.1 = true)
    ∧ (N.metadata.map (·.1)).Nodup
    ∧ stripLines N.content = N.content
    ∧ (¬ N.links = [] → contentReady N.content = true)

instance (N : Note) : Decidable (wfNote N) := by
  unfold wfNote
  infer_instance

/-! ## The header ordering is a total order -/

theorem char_ext_toNat {a b : Char} (h : a.toNat = b.toNat) : a = b :=
  Char.ext (UInt32.ext h)

theorem lexLE_refl (l : List Char) : lexLE l l = true := by
  induction l with
  | nil => rfl
  | cons a as ih =>
    rw [lexLE, if_pos (beq_self_eq_true a)]
    exact ih

theorem lexLE_trans : ∀ (l₁ l₂ l₃ : List Char), lexLE l₁ l₂ = true → lexLE l₂ l₃ = true →
    lexLE l₁ l₃ = true := by
  intro l₁
  induction l₁ with
  | nil => intro l₂ l₃ _ _; rfl
  | cons a as ih =>
    intro l₂ l₃ h12 h23
    cases l₂ with
    | nil => rw [lexLE] at h12; exact absurd h12 (by simp)
    | cons b bs =>
      cases l₃ with
      | nil => rw [lexLE] at h23; exact absurd h23 (by simp)
      | cons c cs =>
        rw [lexLE] at h12 h23 ⊢
        by_cases hab : (a == b) = true
        · rw [if_pos hab] at h12
          have hab' : a = b := by simpa using hab
          by_cases hbc : (b == c) = true
          · rw [if_pos hbc] at h23
            have hbc' : b = c := by simpa using hbc
            rw [if_pos (by rw [hab', hbc']; exact beq_self_eq_true c)]
            exact ih bs cs h12 h23
          · rw [if_neg hbc] at h23
            rw [if_neg (by rw [hab']; exact hbc)]
            rw [hab']
            exact h23
        · rw [if_neg hab] at h12
          have hab2 : a.toNat < b.toNat := of_decide_eq_true h12
          by_cases hbc : (b == c) = true
          · have hbc' : b = c := by simpa using hbc
            rw [if_neg (by rw [← hbc']; exact hab)]
            rw [← hbc']
            exact h12
          · rw [if_neg hbc] at h23
            have hbc2 : b.toNat < c.toNat := of_decide_eq_true h23
            have hacne : ¬ (a == c) = true := by
              simp only [beq_iff_eq]
              intro he
              rw [he] at hab2
              omega
            rw [if_neg hacne]
            exact decide_eq_true (lt_trans hab2 hbc2)

theorem lexLE_total : ∀ (l₁ l₂ : List Char), lexLE l₁ l₂ = true ∨ lexLE l₂ l₁ = true := by
  intro l₁
  induction l₁ with
  | nil => intro l₂; exact Or.inl rfl
  | cons a as ih =>
    intro l₂
    cases l₂ with
    | nil => exact Or.inr rfl
    | cons b bs =>
      rw [lexLE, lexLE]
      by_cases hab : (a == b) = true
      · have hab' : a = b := by simpa using hab
        rw [if_pos hab, if_pos (by rw [hab']; exact beq_self_eq_true b)]
        exact ih bs
      · have hba : ¬ (b == a) = true := by
          simp only [beq_iff_eq] at hab ⊢
          exact fun he => hab he.symm
        rw [if_neg hab, if_neg hba]
        rcases Nat.lt_trichotomy a.toNat b.toNat with h | h | h
        · exact Or.inl (decide_eq_true h)
        · exfalso
          have he : a = b := char_ext_toNat h
          rw [he] at hab
          exact hab (beq_self_eq_true b)
        · exact Or.inr (decide_eq_true h)

theorem lexLE_antisymm : ∀ (l₁ l₂ : List Char), lexLE l₁ l₂ = true → lexLE l₂ l₁ = true →
    l₁ = l₂ := by
  intro l₁
  induction l₁ with
  | nil =>
    intro l₂ _ h21
    cases l₂ with
    | nil => rfl
    | cons b bs => rw [lexLE] at h21; exact absurd h21 (by simp)
  | cons a as ih =>
    intro l₂ h12 h21
    cases l₂ with
    | nil => rw [lexLE] at h12; exact absurd h12 (by simp)
    | cons b bs =>
      rw [lexLE] at h12 h21
      by_cases hab : (a == b) = true
      · have hab' : a = b := by simpa using hab
        rw [if_pos hab] at h12
        rw [if_pos (by rw [hab']; exact beq_self_eq_true b)] at h21
        rw [hab', ih bs h12 h21]
      · have hba : ¬ (b == a) = true := by
          simp only [beq_iff_eq] at hab ⊢
          exact fun he => hab he.symm
        rw [if_neg hab] at h12
        rw [if_neg hba] at h21
        have h1 := of_decide_eq_true h12
        have h2 := of_decide_eq_true h21
        omega

theorem strLE_refl (s : String) : strLE s s = true := lexLE_refl s.data

theorem strLE_trans {a b c : String} (h1 : strLE a b = true) (h2 : strLE b c = true) :
    strLE a c = true := lexLE_trans _ _ _ h1 h2

theorem strLE_total (a b : String) : strLE a b = true ∨ strLE b a = true := lexLE_total _ _

theorem strLE_antisymm {a b : String} (h1 : strLE a b = true) (h2 : strLE b a = true) :
    a = b := by
  have h := lexLE_antisymm a.data b.data h1 h2
  exact congrArg String.mk h

instance : IsTrans (String × String) pairLE := by
  constructor
  intro a b c hab hbc
  rw [pairLE] at hab hbc ⊢
  by_cases h1 : a.1 = b.1
  · rw [if_pos h1] at hab
    by_cases h2 : b.1 = c.1
    · rw [if_pos h2] at hbc
      rw [if_pos (h1.trans h2)]
      exact strLE_trans hab hbc
    · rw [if_neg h2] at hbc
      rw [if_neg (fun he => h2 (h1.symm.trans he)), h1]
      exact hbc
  · rw [if_neg h1] at hab
    by_cases h2 : b.1 = c.1
    · rw [if_neg (fun he => h1 (he.trans h2.symm)), ← h2]
      exact hab
    · rw [if_neg h2] at hbc
      rw [if_neg (show ¬ a.1 = c.1 from fun he => by
        rw [he] at hab
        exact h2 (strLE_antisymm hbc hab))]
      exact strLE_trans hab hbc

instance : IsAntisymm (String × String) pairLE := by
  constructor
  intro a b hab hba
  rw [pairLE] at hab hba
  by_cases h1 : a.1 = b.1
  · rw [if_pos h1] at hab
    rw [if_pos h1.symm] at hba
    exact Prod.ext h1 (strLE_antisymm hab hba)
  · rw [if_neg h1] at hab
    rw [if_neg (fun he => h1 he.symm)] at hba
    exact absurd (strLE_antisymm hab hba) h1

instance : IsTotal (String × String) pairLE := by
  constructor
  intro a b
  by_cases h1 : a.1 = b.1
  · rcases strLE_total a.2 b.2 with h | h
    · left
      rw [pairLE, if_pos h1]
      exact h
    · right
      rw [pairLE, if_pos h1.symm]
      exact h
  · rcases strLE_total a.1 b.1 with h | h
    · left
      rw [pairLE, if_neg h1]
      exact h
    · right
      rw [pairLE, if_neg (fun he => h1 he.symm)]
      exact h

/-! ## Helper lemmas about the repository operations -/

theorem find?_append_none {p : StoredNote → Bool} {l₁ l₂ : List StoredNote}
    (h : l₁.find? p = none) : (l₁ ++ l₂).find? p = l₂.find? p := by
  induction l₁ with
  | nil => rfl
  | cons x xs ih =>
    simp only [List.find?_cons] at h
    rw [List.cons_append, List.find?_cons]
    cases hx : p x with
    | true => simp [hx] at h
    | false =>
      simp only [hx] at h ⊢
      exact ih h

theorem find?_map_id_preserving (f : StoredNote → StoredNote)
    (hf : ∀ m, (f m).id = m.id) (id : String) (ns : List StoredNote) :
    (ns.map f).find? (fun m => m.id == id) = (ns.find? (fun m => m.id == id)).map f := by
  induction ns with
  | nil => rfl
  | cons x xs ih =>
    simp only [List.map_cons, List.find?_cons, hf x]
    cases hx : (x.id == id) with
    | true => rfl
    | false => exact ih

theorem idExists_false_find?_none {s : Store} {id : String}
    (h : s.idExists id = false) : s.notes.find? (fun m => m.id == id) = none := by
  rw [List.find?_eq_none]
  intro x hx hbeq
  have : s.notes.any (fun m => m.id == id) = true := by
    rw [List.any_eq_true]; exact ⟨x, hx, hbeq⟩
  rw [Store.idExists] at h
  rw [h] at this
  exact Bool.false_ne_true this

theorem idExists_iff_exists {s : Store} {id : String} :
    s.idExists id = true ↔ ∃ m ∈ s.notes, m.id = id := by
  rw [Store.idExists, List.any_eq_true]
  constructor
  · rintro ⟨m, hm, hbeq⟩; exact ⟨m, hm, by exact beq_iff_eq.mp hbeq⟩
  · rintro ⟨m, hm, hbeq⟩; exact ⟨m, hm, by exact beq_iff_eq.mpr hbeq⟩

/-! ## Claim C5: create/delete error contracts -/

/-- C5: `create(note)` raises already-exists exactly when the id is present
(and, the operations being pure state transformers, the store is
untouched on the error); `delete(id)` raises not-found exactly when the
id is absent; after a successful `delete(id)`, `read(id)` is absent
without raising and a second `delete(id)` fails with not-found. -/
theorem create_delete_error_contract (s : Store) (now : Nat) (n : Note) (id : String) :
    ((∃ e, s.create now n = .error e) ↔ ∃ m ∈ s.notes, m.id = n.id)
    ∧ (∀ e, s.create now n = .error e → e = .alreadyExists n.id)
    ∧ ((∃ e, s.delete id = .error e) ↔ ¬ ∃ m ∈ s.notes, m.id = id)
    ∧ (∀ e, s.delete id = .error e → e = .notFound id)
    ∧ (∀ s', s.delete id = .ok s' →
        s'.read id = none ∧ s'.delete id = .error (.notFound id)) := by
  refine ⟨?_, ?_, ?_, ?_, ?_⟩
  · rw [← idExists_iff_exists]
    constructor
    · rintro ⟨e, he⟩
      by_contra hex
      rw [Store.create] at he
      simp [Bool.not_eq_true] at hex
      rw [if_neg (by simp [hex])] at he
      exact absurd he (by simp)
    · intro hex
      exact ⟨.alreadyExists n.id, by rw [Store.create, if_pos (by simp [hex])]⟩
  · intro e he
    rw [Store.create] at he
    by_cases hex : s.idExists n.id = true
    · rw [if_pos (by simp [hex])] at he
      exact ((Except.error.injEq _ _).mp he).symm
    · rw [if_neg (by simp [Bool.not_eq_true] at hex; simp [hex])] at he
      exact absurd he (by simp)
  · rw [← idExists_iff_exists]
    constructor
    · rintro ⟨e, he⟩
      intro hex
      rw [Store.delete, if_pos (by simp [hex])] at he
      exact absurd he (by simp)
    · intro hex
      refine ⟨.notFound id, ?_⟩
      rw [Store.delete, if_neg (by simpa using hex)]
  · intro e he
    rw [Store.delete] at he
    by_cases hex : s.idExists id = true
    · rw [if_pos (by simp [hex])] at he
      exact absurd he (by simp)
    · rw [if_neg (by simpa using hex)] at he
      exact ((Except.error.injEq _ _).mp he).symm
  · intro s' hdel
    rw [Store.delete] at hdel
    by_cases hex : s.idExists id = true
    · rw [if_pos (by simp [hex])] at hdel
      have hs' : s' = ⟨(s.notes.filter (fun m => ¬ m.id == id)).map
          (fun m => { m with links := m.links.filter (fun l => ¬ l.targetId == id) })⟩ := by
        exact ((Except.ok.injEq _ _).mp hdel).symm
      have hnone : s'.notes.find? (fun m => m.id == id) = none := by
        rw [hs']
        rw [List.find?_eq_none]
        intro x hx
        simp only [List.mem_map] at hx
        obtain ⟨y, hy, hxy⟩ := hx
        have hyid : (y.id == id) = false := by
          have := List.of_mem_filter hy
          simpa using this
        rw [← hxy]
        simp [hyid]
      refine ⟨?_, ?_⟩
      · rw [Store.read, hnone]; rfl
      · have hnotex : s'.idExists id = false := by
          rw [Store.idExists, ← Bool.not_eq_true, List.any_eq_true]
          rintro ⟨x, hx, hbeq⟩
          have := List.find?_eq_none.mp hnone x hx
          exact this hbeq
        rw [Store.delete, if_neg (by simp [hnotex])]
    · rw [if_neg (by simpa using hex)] at hdel
      exact absurd hdel (by simp)

/-- Witness for C5 at a concrete store. -/
theorem create_delete_error_contract_witness :
    ((∃ e, (Store.mk [⟨"a", "T", ["x"], .permanent, 0, 0, [], [], []⟩]).create 1
        ⟨"a", "U", ["y"], .permanent, [], [], 2, 3, []⟩ = .error e)
      ↔ ∃ m ∈ (Store.mk [⟨"a", "T", ["x"], .permanent, 0, 0, [], [], []⟩]).notes, m.id = "a")
    ∧ (∀ e, (Store.mk [⟨"a", "T", ["x"], .permanent, 0, 0, [], [], []⟩]).create 1
        ⟨"a", "U", ["y"], .permanent, [], [], 2, 3, []⟩ = .error e → e = .alreadyExists "a")
    ∧ ((∃ e, (Store.mk [⟨"a", "T", ["x"], .permanent, 0, 0, [], [], []⟩]).delete "b" = .error e)
      ↔ ¬ ∃ m ∈ (Store.mk [⟨"a", "T", ["x"], .permanent, 0, 0, [], [], []⟩]).notes, m.id = "b")
    ∧ (∀ e, (Store.mk [⟨"a", "T", ["x"], .permanent, 0, 0, [], [], []⟩]).delete "b" = .error e →
        e = .notFound "b")
    ∧ (∀ s', (Store.mk [⟨"a", "T", ["x"], .permanent, 0, 0, [], [], []⟩]).delete "b" = .ok s' →
        s'.read "b" = none ∧ s'.delete "b" = .error (.notFound "b")) :=
  create_delete_error_contract (Store.mk [⟨"a", "T", ["x"], .permanent, 0, 0, [], [], []⟩]) 1
    ⟨"a", "U", ["y"], .permanent, [], [], 2, 3, []⟩ "b"

theorem update_ok_shape {s : Store} {now : Nat} {item : Note} {m₀ : StoredNote}
    (hfind : s.notes.find? (fun m => m.id == item.id) = some m₀) :
    s.update now item = .ok
      (⟨s.notes.map (fun m =>
        if m.id == item.id then
          ⟨m.id, item.title, item.content, item.note_type, m.createdAt, now,
            item.metadata, item.tags.map (·.name),
            (item.links.filter (fun l => s.ids.contains l.target_id)).map
              (toStoredLink item.id now)⟩
        else m)⟩,
      dbNoteToNote ⟨m₀.id, item.title, item.content, item.note_type, m₀.createdAt, now,
        item.metadata, item.tags.map (·.name),
        (item.links.filter (fun l => s.ids.contains l.target_id)).map
          (toStoredLink item.id now)⟩) := by
  have hbeq : (m₀.id == item.id) = true := by simpa using List.find?_some hfind
  have hex : s.idExists item.id = true := by
    rw [Store.idExists, List.any_eq_true]
    have hmem := List.mem_of_find?_eq_some hfind
    exact ⟨m₀, hmem, hbeq⟩
  rw [Store.update, if_pos (by simp [hex])]
  have hmap := find?_map_id_preserving (fun m =>
    if m.id == item.id then
      ⟨m.id, item.title, item.content, item.note_type, m.createdAt, now,
        item.metadata, item.tags.map (·.name),
        (item.links.filter (fun l => s.ids.contains l.target_id)).map
          (toStoredLink item.id now)⟩
    else m) (fun m => by dsimp only; split <;> rfl) item.id s.notes
  dsimp only
  rw [hmap, hfind]
  simp only [Option.map_some', hbeq, if_true, eq_self_iff_true]

theorem read_after_update {s : Store} {now : Nat} {item : Note} {m₀ : StoredNote}
    (hfind : s.notes.find? (fun m => m.id == item.id) = some m₀) :
    ∀ s' r, s.update now item = .ok (s', r) →
      s'.read item.id = some (dbNoteToNote
        ⟨m₀.id, item.title, item.content, item.note_type, m₀.createdAt, now,
          item.metadata, item.tags.map (·.name),
          (item.links.filter (fun l => s.ids.contains l.target_id)).map
            (toStoredLink item.id now)⟩) := by
  intro s' r hok
  rw [update_ok_shape hfind] at hok
  simp only [Except.ok.injEq, Prod.mk.injEq] at hok
  obtain ⟨hs', _⟩ := hok
  have hbeq : (m₀.id == item.id) = true := by simpa using List.find?_some hfind
  have hmap := find?_map_id_preserving (fun m =>
    if m.id == item.id then
      ⟨m.id, item.title, item.content, item.note_type, m.createdAt, now,
        item.metadata, item.tags.map (·.name),
        (item.links.filter (fun l => s.ids.contains l.target_id)).map
          (toStoredLink item.id now)⟩
    else m) (fun m => by dsimp only; split <;> rfl) item.id s.notes
  rw [← hs', Store.read, hmap, hfind]
  simp only [Option.map_some', hbeq, if_true, eq_self_iff_true]

theorem create_ok_shape {s : Store} {now : Nat} {item : Note}
    (h : s.idExists item.id = false) :
    s.create now item = .ok
      (⟨s.notes ++ [⟨item.id, item.title, item.content, item.note_type, item.created_at,
          item.updated_at, item.metadata, item.tags.map (·.name),
          (item.links.filter (fun l => (item.id :: s.ids).contains l.target_id)).map
            (toStoredLink item.id now)⟩]⟩,
      dbNoteToNote ⟨item.id, item.title, item.content, item.note_type, item.created_at,
        item.updated_at, item.metadata, item.tags.map (·.name),
        (item.links.filter (fun l => (item.id :: s.ids).contains l.target_id)).map
          (toStoredLink item.id now)⟩) := by
  rw [Store.create, if_neg (by simp [h])]

theorem read_after_create {s : Store} {now : Nat} {item : Note}
    (h : s.idExists item.id = false) :
    ∀ s' r, s.create now item = .ok (s', r) →
      s'.read item.id = some (dbNoteToNote
        ⟨item.id, item.title, item.content, item.note_type, item.created_at,
          item.updated_at, item.metadata, item.tags.map (·.name),
          (item.links.filter (fun l => (item.id :: s.ids).contains l.target_id)).map
            (toStoredLink item.id now)⟩) := by
  intro s' r hok
  rw [create_ok_shape h] at hok
  simp only [Except.ok.injEq, Prod.mk.injEq] at hok
  obtain ⟨hs', _⟩ := hok
  rw [← hs', Store.read, find?_append_none (idExists_false_find?_none h)]
  simp [List.find?_cons]

/-! ## Claim C9: update restamps `updated_at` and keeps `created_at`;
create persists the supplied timestamps -/

/-- C9: a successful `update(note)` persists the call time as the updated
timestamp — whatever `note.updated_at` the caller supplied — and leaves
the persisted created timestamp unchanged, while `create(note)` persists
both supplied timestamps verbatim. -/
theorem update_restamps_create_preserves (s : Store) (now : Nat) (item : Note) :
    (s.idExists item.id = true →
      ∃ s' r, s.update now item = .ok (s', r)
        ∧ (s'.read item.id).map Note.updated_at = some now
        ∧ (s'.read item.id).map Note.created_at = (s.read item.id).map Note.created_at)
    ∧ (s.idExists item.id = false →
      ∃ s' r, s.create now item = .ok (s', r)
        ∧ (s'.read item.id).map Note.created_at = some item.created_at
        ∧ (s'.read item.id).map Note.updated_at = some item.updated_at) := by
  constructor
  · intro hex
    obtain ⟨m₀, hfind⟩ : ∃ m₀, s.notes.find? (fun m => m.id == item.id) = some m₀ := by
      cases hf : s.notes.find? (fun m => m.id == item.id) with
      | some m₀ => exact ⟨m₀, rfl⟩
      | none =>
        exfalso
        rw [Store.idExists, List.any_eq_true] at hex
        obtain ⟨x, hx, hbeq⟩ := hex
        exact (List.find?_eq_none.mp hf x hx) hbeq
    refine ⟨_, _, update_ok_shape hfind, ?_, ?_⟩
    · rw [read_after_update hfind _ _ (update_ok_shape hfind)]
      rfl
    · rw [read_after_update hfind _ _ (update_ok_shape hfind), Store.read, hfind]
      rfl
  · intro hex
    refine ⟨_, _, create_ok_shape hex, ?_, ?_⟩
    · rw [read_after_create hex _ _ (create_ok_shape hex)]
      rfl
    · rw [read_after_create hex _ _ (create_ok_shape hex)]
      rfl

/-- Witness for C9 at a concrete store: the caller supplies
`updated_at = 99` but update persists the call time `7`. -/
theorem update_restamps_create_preserves_witness :
    ((Store.mk [⟨"a", "T", ["x"], .permanent, 3, 4, [], [], []⟩]).idExists "a" = true →
      ∃ s' r, (Store.mk [⟨"a", "T", ["x"], .permanent, 3, 4, [], [], []⟩]).update 7
          ⟨"a", "U", ["y"], .permanent, [], [], 98, 99, []⟩ = .ok (s', r)
        ∧ (s'.read "a").map Note.updated_at = some 7
        ∧ (s'.read "a").map Note.created_at
            = ((Store.mk [⟨"a", "T", ["x"], .permanent, 3, 4, [], [], []⟩]).read "a").map
                Note.created_at)
    ∧ ((Store.mk [⟨"a", "T", ["x"], .permanent, 3, 4, [], [], []⟩]).idExists "a" = false →
      ∃ s' r, (Store.mk [⟨"a", "T", ["x"], .permanent, 3, 4, [], [], []⟩]).create 7
          ⟨"a", "U", ["y"], .permanent, [], [], 98, 99, []⟩ = .ok (s', r)
        ∧ (s'.read "a").map Note.created_at = some 98
        ∧ (s'.read "a").map Note.updated_at = some 99) :=
  update_restamps_create_preserves
    (Store.mk [⟨"a", "T", ["x"], .permanent, 3, 4, [], [], []⟩]) 7
    ⟨"a", "U", ["y"], .permanent, [], [], 98, 99, []⟩

/-! ## Claim C1: link persistence is exactly the target-exists filter -/

theorem mem_ids_iff {s : Store} {id : String} : id ∈ s.ids ↔ ∃ m ∈ s.notes, m.id = id := by
  simp [Store.ids, List.mem_map, eq_comm]

theorem not_mem_ids_of_idExists_false {s : Store} {id : String}
    (h : s.idExists id = false) : id ∉ s.ids := by
  intro hmem
  obtain ⟨m, hm, hid⟩ := mem_ids_iff.mp hmem
  have : s.idExists id = true := idExists_iff_exists.mpr ⟨m, hm, hid⟩
  rw [h] at this
  exact Bool.false_ne_true this

/-- The domain view of a link persisted for note `noteId` at time `now`. -/
theorem dbNoteToNote_links (m : StoredNote) :
    (dbNoteToNote m).links
      = m.links.map (fun l => ⟨l.sourceId, l.targetId, l.linkType, l.description,
          some l.createdAt⟩) := rfl

/-- C1: for both `create(note)` and `update(note)`, a link of the supplied
note is persisted exactly when its target id exists in the store at the
moment the link rows are written (for `create`, the freshly flushed note
itself included); dropped links do not prevent the operation from
returning normally.  In particular creating note A with a link to a
not-yet-existing note B leaves A without the link, and once B exists a
re-`update` of A with the same link persists it. -/
theorem link_target_filter (s : Store) (t₁ t₂ t₃ : Nat) (item A B : Note) (l : Link) :
    (s.idExists item.id = false →
      ∃ s' r, s.create t₁ item = .ok (s', r)
        ∧ (s'.read item.id).map Note.links
          = some ((item.links.filter (fun lk => (item.id :: s.ids).contains lk.target_id)).map
              (fun lk => ⟨item.id, lk.target_id, lk.link_type, lk.description,
                some (lk.created_at.getD t₁)⟩)))
    ∧ (s.idExists item.id = true →
      ∃ s' r, s.update t₁ item = .ok (s', r)
        ∧ (s'.read item.id).map Note.links
          = some ((item.links.filter (fun lk => s.ids.contains lk.target_id)).map
              (fun lk => ⟨item.id, lk.target_id, lk.link_type, lk.description,
                some (lk.created_at.getD t₁)⟩)))
    ∧ (A.links = [l] → l.target_id = B.id →
        s.idExists A.id = false → s.idExists B.id = false → A.id ≠ B.id →
        ∃ s₁ r₁ s₂ r₂ s₃ r₃,
          s.create t₁ A = .ok (s₁, r₁)
          ∧ (s₁.read A.id).map Note.links = some []
          ∧ s₁.create t₂ B = .ok (s₂, r₂)
          ∧ s₂.update t₃ A = .ok (s₃, r₃)
          ∧ (s₃.read A.id).map Note.links
              = some [⟨A.id, B.id, l.link_type, l.description, some (l.created_at.getD t₃)⟩]) := by
  refine ⟨?_, ?_, ?_⟩
  · intro h
    refine ⟨_, _, create_ok_shape h, ?_⟩
    rw [read_after_create h _ _ (create_ok_shape h)]
    rw [Option.map_some', dbNoteToNote_links, List.map_map]
    rfl
  · intro h
    obtain ⟨m₀, hfind⟩ : ∃ m₀, s.notes.find? (fun m => m.id == item.id) = some m₀ := by
      cases hf : s.notes.find? (fun m => m.id == item.id) with
      | some m₀ => exact ⟨m₀, rfl⟩
      | none =>
        exfalso
        rw [Store.idExists, List.any_eq_true] at h
        obtain ⟨x, hx, hbeq⟩ := h
        exact (List.find?_eq_none.mp hf x hx) hbeq
    refine ⟨_, _, update_ok_shape hfind, ?_⟩
    rw [read_after_update hfind _ _ (update_ok_shape hfind)]
    rw [Option.map_some', dbNoteToNote_links, List.map_map]
    rfl
  · intro hAl hlt hA hB hAB
    -- create A: the link to B is dropped
    have hdropped : (A.links.filter (fun lk => (A.id :: s.ids).contains lk.target_id)) = [] := by
      rw [hAl]
      have h1 : ¬ B.id = A.id := fun heq => hAB heq.symm
      have h2 : B.id ∉ s.ids := not_mem_ids_of_idExists_false hB
      simp [List.filter_cons, hlt, h1, h2]
    -- the row inserted for A and the resulting stores
    have hrowA : (⟨A.id, A.title, A.content, A.note_type, A.created_at, A.updated_at,
        A.metadata, A.tags.map (·.name),
        (A.links.filter (fun lk => (A.id :: s.ids).contains lk.target_id)).map
          (toStoredLink A.id t₁)⟩ : StoredNote).id = A.id := rfl
    set rowA : StoredNote :=
      ⟨A.id, A.title, A.content, A.note_type, A.created_at, A.updated_at,
        A.metadata, A.tags.map (·.name),
        (A.links.filter (fun lk => (A.id :: s.ids).contains lk.target_id)).map
          (toStoredLink A.id t₁)⟩
    have hs₁ : (⟨s.notes ++ [rowA]⟩ : Store).idExists B.id = false := by
      rw [Store.idExists, List.any_append]
      have h1 : s.notes.any (fun m => m.id == B.id) = false := hB
      have h2 : ([rowA].any (fun m => m.id == B.id)) = false := by
        simp only [List.any_cons, List.any_nil, Bool.or_false]
        exact beq_eq_false_iff_ne.mpr hAB
      rw [h1, h2]
      rfl
    set rowB : StoredNote :=
      ⟨B.id, B.title, B.content, B.note_type, B.created_at, B.updated_at,
        B.metadata, B.tags.map (·.name),
        (B.links.filter (fun lk =>
          (B.id :: (⟨s.notes ++ [rowA]⟩ : Store).ids).contains lk.target_id)).map
          (toStoredLink B.id t₂)⟩
    have hfindA : ((s.notes ++ [rowA]) ++ [rowB]).find? (fun m => m.id == A.id)
        = some rowA := by
      rw [List.append_assoc, find?_append_none (idExists_false_find?_none hA)]
      simp [List.find?_cons]
    have hupd := @update_ok_shape ⟨(s.notes ++ [rowA]) ++ [rowB]⟩ t₃ A _ hfindA
    refine ⟨_, _, _, _, _, _, create_ok_shape hA, ?_, create_ok_shape hs₁, hupd, ?_⟩
    · rw [read_after_create hA _ _ (create_ok_shape hA)]
      rw [Option.map_some', dbNoteToNote_links, hdropped]
      rfl
    · rw [read_after_update hfindA _ _ hupd]
      have hkept : (A.links.filter (fun lk =>
          (⟨(s.notes ++ [rowA]) ++ [rowB]⟩ : Store).ids.contains lk.target_id)) = [l] := by
        rw [hAl]
        have hmem : l.target_id ∈ (⟨(s.notes ++ [rowA]) ++ [rowB]⟩ : Store).ids := by
          rw [hlt, Store.ids]
          simp
        have hc : ((⟨(s.notes ++ [rowA]) ++ [rowB]⟩ : Store).ids.contains l.target_id)
            = true := by
          exact List.elem_iff.mpr hmem
        simp only [List.filter_cons, List.filter_nil, hc]
        rfl
      rw [Option.map_some', dbNoteToNote_links, hkept]
      simp [toStoredLink, hlt]

/-- Witness for C1 at concrete inputs. -/
theorem link_target_filter_witness :
    ((Store.mk []).idExists "a" = false →
      ∃ s' r, (Store.mk []).create 1
          ⟨"a", "A", ["x"], .permanent, [], [⟨"a", "b", .reference, none, none⟩], 0, 0, []⟩
          = .ok (s', r)
        ∧ (s'.read "a").map Note.links
          = some ((([⟨"a", "b", .reference, none, none⟩] : List Link).filter
              (fun lk => (("a" : String) :: (Store.mk []).ids).contains lk.target_id)).map
              (fun lk => ⟨"a", lk.target_id, lk.link_type, lk.description,
                some (lk.created_at.getD 1)⟩)))
    ∧ ((Store.mk []).idExists "a" = true →
      ∃ s' r, (Store.mk []).update 1
          ⟨"a", "A", ["x"], .permanent, [], [⟨"a", "b", .reference, none, none⟩], 0, 0, []⟩
          = .ok (s', r)
        ∧ (s'.read "a").map Note.links
          = some ((([⟨"a", "b", .reference, none, none⟩] : List Link).filter
              (fun lk => (Store.mk []).ids.contains lk.target_id)).map
              (fun lk => ⟨"a", lk.target_id, lk.link_type, lk.description,
                some (lk.created_at.getD 1)⟩)))
    ∧ (([⟨"a", "b", .reference, none, none⟩] : List Link)
          = [⟨"a", "b", .reference, none, none⟩] →
        ("b" : String) = "b" →
        (Store.mk []).idExists "a" = false → (Store.mk []).idExists "b" = false →
        ("a" : String) ≠ "b" →
        ∃ s₁ r₁ s₂ r₂ s₃ r₃,
          (Store.mk []).create 1
              ⟨"a", "A", ["x"], .permanent, [], [⟨"a", "b", .reference, none, none⟩], 0, 0, []⟩
              = .ok (s₁, r₁)
          ∧ (s₁.read "a").map Note.links = some []
          ∧ s₁.create 2 ⟨"b", "B", ["y"], .permanent, [], [], 0, 0, []⟩ = .ok (s₂, r₂)
          ∧ s₂.update 3
              ⟨"a", "A", ["x"], .permanent, [], [⟨"a", "b", .reference, none, none⟩], 0, 0, []⟩
              = .ok (s₃, r₃)
          ∧ (s₃.read "a").map Note.links
              = some [⟨"a", "b", .reference, none, some 3⟩]) := by
  have h := link_target_filter (Store.mk []) 1 2 3
    ⟨"a", "A", ["x"], .permanent, [], [⟨"a", "b", .reference, none, none⟩], 0, 0, []⟩
    ⟨"a", "A", ["x"], .permanent, [], [⟨"a", "b", .reference, none, none⟩], 0, 0, []⟩
    ⟨"b", "B", ["y"], .permanent, [], [], 0, 0, []⟩
    ⟨"a", "b", .reference, none, none⟩
  exact h

/-! ## Claim C10: the unescaped `%query%` pattern -/

theorem likeMatches_pct_cons {ps : List Char} (h : ∀ cs, likeMatches ps cs = true) :
    ∀ cs, likeMatches ('%' :: ps) cs = true := by
  intro cs
  induction cs with
  | nil => simp [likeMatches, h []]
  | cons c cs ih => simp [likeMatches, h (c :: cs), ih]

theorem likeMatches_pct_one : ∀ cs, likeMatches ['%'] cs = true := by
  intro cs
  induction cs with
  | nil => simp [likeMatches]
  | cons c cs ih => simp [likeMatches, ih]

theorem likeMatches_pcts : ∀ cs, likeMatches ['%', '%', '%'] cs = true := by
  have h2 : ∀ cs, likeMatches ['%', '%'] cs = true := likeMatches_pct_cons likeMatches_pct_one
  exact likeMatches_pct_cons h2

theorem ilikeField_pct (f : String) : ilikeField "%" f = true := by
  rw [ilikeField]
  have : ("%" ++ "%" ++ "%" : String).data = ['%', '%', '%'] := rfl
  rw [this]
  exact likeMatches_pcts f.data

/-- The claim C10 as stated is refuted here: on a nonempty store holding a
single note without tags, `search("%")` with (only) the tag field flag
enabled returns nothing instead of every note. -/
theorem search_pct_counterexample :
    (Store.mk [⟨"a", "T", ["x"], .permanent, 0, 0, [], [], []⟩]).notes ≠ []
    ∧ ¬ (dbNoteToNote ⟨"a", "T", ["x"], .permanent, 0, 0, [], [], []⟩
        ∈ (Store.mk [⟨"a", "T", ["x"], .permanent, 0, 0, [], [], []⟩]).search "%" false false
            true 50) := by
  refine ⟨?_, ?_⟩
  · decide
  · decide

/-- C10 (amended): the query is interpolated unescaped into a `%query%`
`LIKE` pattern, so `search("%")` matches on every field it inspects:
with the title or content flag enabled every note of the store is
returned (up to the limit); with only the tag flag enabled the match
condition holds exactly for the notes that have at least one tag. -/
theorem search_pct_matches (s : Store) (st sc stg : Bool) (limit : Nat)
    (hlim : s.notes.length ≤ limit) :
    (∀ m ∈ s.notes, (st = true ∨ sc = true) →
      dbNoteToNote m ∈ s.search "%" st sc stg limit)
    ∧ (∀ m : StoredNote, searchCond "%" false false true m = true ↔ m.tagNames ≠ []) := by
  constructor
  · intro m hm hflag
    have hcond : searchCond "%" st sc stg m = true := by
      rcases hflag with h | h <;> subst h <;> simp [searchCond, ilikeField_pct]
    have hne : ¬ (¬ st = true ∧ ¬ sc = true ∧ ¬ stg = true) := by
      rintro ⟨ha, hb, _⟩
      rcases hflag with h | h
      · exact ha h
      · exact hb h
    rw [Store.search, if_neg hne]
    have hmemf : m ∈ s.notes.filter (searchCond "%" st sc stg) :=
      List.mem_filter.mpr ⟨hm, hcond⟩
    have hmems : m ∈ List.insertionSort updatedDesc
        (s.notes.filter (searchCond "%" st sc stg)) :=
      (List.perm_insertionSort updatedDesc _).mem_iff.mpr hmemf
    have hlen : (List.insertionSort updatedDesc
        (s.notes.filter (searchCond "%" st sc stg))).length ≤ limit := by
      rw [List.length_insertionSort]
      exact le_trans (List.length_filter_le _ _) hlim
    rw [List.take_of_length_le hlen]
    exact List.mem_map_of_mem dbNoteToNote hmems
  · intro m
    rw [searchCond]
    simp only [Bool.false_and, Bool.true_and, Bool.false_or]
    constructor
    · intro h
      obtain ⟨t, ht, _⟩ := List.any_eq_true.mp h
      intro hnil
      rw [hnil] at ht
      exact List.not_mem_nil t ht
    · intro hne
      rcases List.exists_mem_of_ne_nil _ hne with ⟨t, ht⟩
      exact List.any_eq_true.mpr ⟨t, ht, ilikeField_pct t⟩

/-- Witness for the amended C10 at a concrete store. -/
theorem search_pct_matches_witness :
    (Store.mk [⟨"a", "T", ["x"], .permanent, 0, 0, [], ["tg"], []⟩]).notes.length ≤ 10
    ∧ ((∀ m ∈ (Store.mk [⟨"a", "T", ["x"], .permanent, 0, 0, [], ["tg"], []⟩]).notes,
        (true = true ∨ false = true) →
        dbNoteToNote m ∈ (Store.mk [⟨"a", "T", ["x"], .permanent, 0, 0, [], ["tg"], []⟩]).search
          "%" true false false 10)
      ∧ (∀ m : StoredNote, searchCond "%" false false true m = true ↔ m.tagNames ≠ [])) :=
  ⟨by decide,
    search_pct_matches (Store.mk [⟨"a", "T", ["x"], .permanent, 0, 0, [], ["tg"], []⟩])
      true false false 10 (by decide)⟩

/-! ## Claim C8: validate_links characterization -/

theorem contains_eq_of_mem_iff {l₁ l₂ : List String} (h : ∀ x, x ∈ l₁ ↔ x ∈ l₂)
    (a : String) : l₁.contains a = l₂.contains a := by
  by_cases hm : a ∈ l₂
  · have h1 : l₁.contains a = true := List.elem_iff.mpr ((h a).mpr hm)
    have h2 : l₂.contains a = true := List.elem_iff.mpr hm
    rw [h1, h2]
  · have h1 : l₁.contains a = false := by
      rw [← Bool.not_eq_true]
      intro hc
      exact hm ((h a).mp (List.elem_iff.mp hc))
    have h2 : l₂.contains a = false := by
      rw [← Bool.not_eq_true]
      intro hc
      exact hm (List.elem_iff.mp hc)
    rw [h1, h2]

theorem foldl_collect {α : Type} (f : α → List String) (keyf : α → String) :
    ∀ (l : List α) (acc : List (String × List String)),
      l.foldl (fun acc x => if (f x).isEmpty then acc else acc ++ [(keyf x, f x)]) acc
        = acc ++ (l.filter (fun x => !(f x).isEmpty)).map (fun x => (keyf x, f x)) := by
  intro l
  induction l with
  | nil => intro acc; simp
  | cons x xs ih =>
    intro acc
    rw [List.foldl_cons, List.filter_cons]
    cases hx : (f x).isEmpty with
    | true =>
      rw [ih]
      simp
    | false =>
      rw [ih]
      simp

theorem map_filter_congr {α β : Type} (F G : α → β) (P Q : α → Bool) (l : List α)
    (hPQ : ∀ x ∈ l, P x = Q x) (hFG : ∀ x ∈ l, F x = G x) :
    (l.filter P).map F = (l.filter Q).map G := by
  induction l with
  | nil => rfl
  | cons x xs ih =>
    have ihx := ih (fun y hy => hPQ y (List.mem_cons_of_mem x hy))
      (fun y hy => hFG y (List.mem_cons_of_mem x hy))
    rw [List.filter_cons, List.filter_cons, hPQ x (List.mem_cons_self x xs)]
    cases hq : Q x with
    | true => simp [ihx, hFG x (List.mem_cons_self x xs)]
    | false => simp [ihx]

theorem validateLinks_closed (s : Store) (hlen : s.notes.length ≤ 10000) :
    validateLinks s =
      ((List.insertionSort updatedDesc s.notes).filter
        (fun m => !(brokenTargets s m).isEmpty)).map
        (fun m => (m.id, brokenTargets s m)) := by
  have hlist : s.list 10000 0 none none
      = (List.insertionSort updatedDesc s.notes).map dbNoteToNote := by
    rw [Store.list]
    rw [List.drop_zero, List.take_of_length_le (by rw [List.length_insertionSort]; exact hlen)]
  rw [validateLinks, hlist]
  dsimp only
  refine (foldl_collect (fun note : Note => (note.links.filter (fun l =>
      ¬ (((List.insertionSort updatedDesc s.notes).map dbNoteToNote).map (·.id)).contains
        l.target_id)).map (·.target_id)) (fun note => note.id)
      ((List.insertionSort updatedDesc s.notes).map dbNoteToNote) []).trans ?_
  rw [List.nil_append]
  have hids : ∀ x : String,
      x ∈ ((List.insertionSort updatedDesc s.notes).map dbNoteToNote).map (·.id)
        ↔ x ∈ s.ids := by
    intro x
    rw [List.map_map]
    have : (fun m : StoredNote => (dbNoteToNote m).id) = (fun m : StoredNote => m.id) := rfl
    have hperm : ((List.insertionSort updatedDesc s.notes).map
        (fun m => (dbNoteToNote m).id)).Perm (s.notes.map (fun m => m.id)) :=
      (List.perm_insertionSort updatedDesc s.notes).map _
    rw [Store.ids]
    exact hperm.mem_iff
  have hg : ∀ m : StoredNote,
      ((dbNoteToNote m).links.filter (fun l =>
        ¬ (((List.insertionSort updatedDesc s.notes).map dbNoteToNote).map (·.id)).contains
          l.target_id)).map (·.target_id) = brokenTargets s m := by
    intro m
    rw [dbNoteToNote_links, List.filter_map, List.map_map, brokenTargets]
    refine map_filter_congr _ _ _ _ m.links (fun l _ => ?_) (fun l _ => rfl)
    dsimp only [Function.comp]
    rw [contains_eq_of_mem_iff hids l.targetId]
  rw [List.filter_map, List.map_map]
  refine map_filter_congr _ _ _ _ (List.insertionSort updatedDesc s.notes)
    (fun m _ => ?_) (fun m _ => ?_)
  · dsimp only [Function.comp]
    rw [hg m]
  · dsimp only [Function.comp]
    rw [hg m]
    rfl

theorem validateLinks_mem_iff (s : Store) (hlen : s.notes.length ≤ 10000)
    (S : String) (bs : List String) :
    (S, bs) ∈ validateLinks s
      ↔ ∃ m ∈ s.notes, m.id = S ∧ brokenTargets s m = bs ∧ bs ≠ [] := by
  rw [validateLinks_closed s hlen, List.mem_map]
  constructor
  · rintro ⟨m, hm, heq⟩
    have hmem := List.mem_filter.mp hm
    have hperm := (List.perm_insertionSort updatedDesc s.notes).mem_iff.mp hmem.1
    obtain ⟨h1, h2⟩ := Prod.mk.injEq .. ▸ heq
    refine ⟨m, hperm, h1, h2, ?_⟩
    intro hnil
    have := hmem.2
    rw [h2, hnil] at this
    simp at this
  · rintro ⟨m, hm, h1, h2, hne⟩
    refine ⟨m, List.mem_filter.mpr
      ⟨(List.perm_insertionSort updatedDesc s.notes).mem_iff.mpr hm, ?_⟩, ?_⟩
    · rw [h2]
      simpa using hne
    · rw [h1, h2]

theorem validateLinks_eq_nil_iff (s : Store) (hlen : s.notes.length ≤ 10000) :
    validateLinks s = [] ↔ ∀ m ∈ s.notes, brokenTargets s m = [] := by
  rw [validateLinks_closed s hlen, List.map_eq_nil_iff, List.filter_eq_nil_iff]
  constructor
  · intro h m hm
    have := h m ((List.perm_insertionSort updatedDesc s.notes).mem_iff.mpr hm)
    simpa using this
  · intro h m hm
    have := h m ((List.perm_insertionSort updatedDesc s.notes).mem_iff.mp hm)
    simp [this]

/-- C8: `validate_links()` (on a store within the 10000-note load limit)
returns a mapping with an entry `(S, targets)` exactly for those stored
notes whose outgoing links include targets not present in the store, the
entry listing exactly those dangling targets; the mapping is empty
exactly when every stored link's target exists.  On a store holding a
single note with a single dangling link the mapping is exactly that one
entry, and after the missing target is created and the link re-added by
an update it is empty. -/
theorem validate_links_characterization (s : Store) (hlen : s.notes.length ≤ 10000)
    (m : StoredNote) (sl : StoredLink) :
    ((∀ S bs, (S, bs) ∈ validateLinks s
        ↔ ∃ n ∈ s.notes, n.id = S ∧ brokenTargets s n = bs ∧ bs ≠ [])
    ∧ (validateLinks s = [] ↔ ∀ n ∈ s.notes, brokenTargets s n = []))
    ∧ (s.notes = [m] → m.links = [sl] → sl.targetId ≠ m.id →
        validateLinks s = [(m.id, [sl.targetId])]
        ∧ ∀ (B A' : Note) (lnk : Link) (t₂ t₃ : Nat),
            B.id = sl.targetId → B.links = [] → A'.id = m.id → A'.links = [lnk] →
            lnk.target_id = sl.targetId →
            ∃ s₂ r₂ s₃ r₃, s.create t₂ B = .ok (s₂, r₂)
              ∧ s₂.update t₃ A' = .ok (s₃, r₃)
              ∧ validateLinks s₃ = []) := by
  refine ⟨⟨fun S bs => validateLinks_mem_iff s hlen S bs, validateLinks_eq_nil_iff s hlen⟩, ?_⟩
  intro hnotes hlinks hne
  have hids : s.ids = [m.id] := by rw [Store.ids, hnotes]; rfl
  constructor
  · rw [validateLinks_closed s hlen, hnotes]
    have hsort : List.insertionSort updatedDesc [m] = [m] := rfl
    rw [hsort]
    have hbm : brokenTargets s m = [sl.targetId] := by
      rw [brokenTargets, hlinks, hids]
      have hc : (([m.id] : List String).contains sl.targetId) = false := by
        rw [← Bool.not_eq_true]
        intro hcc
        exact hne (by simpa using List.elem_iff.mp hcc)
      simp [List.filter_cons, hc, hne]
    simp [List.filter_cons, hbm]
  · intro B A' lnk t₂ t₃ hBid hBlinks hAid hAlinks hlnk
    have hBex : s.idExists B.id = false := by
      rw [Store.idExists, hnotes]
      simp only [List.any_cons, List.any_nil, Bool.or_false]
      rw [hBid]
      exact beq_eq_false_iff_ne.mpr (Ne.symm hne)
    have hcreate := @create_ok_shape s t₂ B hBex
    set rowB : StoredNote :=
      ⟨B.id, B.title, B.content, B.note_type, B.created_at, B.updated_at,
        B.metadata, B.tags.map (·.name),
        (B.links.filter (fun lk => (B.id :: s.ids).contains lk.target_id)).map
          (toStoredLink B.id t₂)⟩ with hrowB
    have hrowBlinks : rowB.links = [] := by rw [hrowB]; rw [hBlinks]; rfl
    have hfindA : (s.notes ++ [rowB]).find? (fun n => n.id == A'.id) = some m := by
      rw [hnotes]
      have : (m.id == A'.id) = true := by rw [hAid]; exact beq_self_eq_true m.id
      simp [List.find?_cons, this]
    have hupd := @update_ok_shape ⟨s.notes ++ [rowB]⟩ t₃ A' _ hfindA
    refine ⟨_, _, _, _, hcreate, hupd, ?_⟩
    -- the final store
    have hkept : A'.links.filter (fun lk =>
        (⟨s.notes ++ [rowB]⟩ : Store).ids.contains lk.target_id) = [lnk] := by
      rw [hAlinks]
      have hmem : lnk.target_id ∈ (⟨s.notes ++ [rowB]⟩ : Store).ids := by
        rw [Store.ids, hnotes, hlnk, ← hBid]
        simp [hrowB]
      have hc : ((⟨s.notes ++ [rowB]⟩ : Store).ids.contains lnk.target_id) = true :=
        List.elem_iff.mpr hmem
      simp only [List.filter_cons, List.filter_nil, hc]
      rfl
    have hm1 : (m.id == A'.id) = true := by rw [hAid]; exact beq_self_eq_true m.id
    have hb1 : ¬ ((rowB.id == A'.id) = true) := by
      rw [show rowB.id = B.id from rfl, hAid, hBid]
      simp [hne]
    rw [validateLinks_eq_nil_iff]
    · rw [hnotes, List.singleton_append] at hkept
      rw [show (⟨s.notes ++ [rowB]⟩ : Store).notes = s.notes ++ [rowB] from rfl, hnotes]
      rw [List.singleton_append, List.map_cons, List.map_cons, List.map_nil]
      dsimp only
      rw [if_pos hm1, if_neg hb1]
      intro n hn
      rcases List.mem_cons.mp hn with h | h
      · -- the updated A'-row: its only link targets B.id which exists
        rw [h, brokenTargets]
        dsimp only
        rw [hkept]
        simp [Store.ids, toStoredLink, hlnk, ← hBid]
      · -- the untouched B-row: no links at all
        rcases List.mem_cons.mp h with h' | hfalse
        · rw [h', brokenTargets, hrowBlinks]
          rfl
        · exact absurd hfalse (List.not_mem_nil n)
    · -- the final store has two notes
      rw [show (⟨s.notes ++ [rowB]⟩ : Store).notes = s.notes ++ [rowB] from rfl, hnotes]
      simp

/-- Witness for C8 at a concrete store holding one note with one dangling
link. -/
theorem validate_links_characterization_witness :
    (Store.mk [⟨"a", "T", ["x"], .permanent, 0, 0, [], [],
        [⟨"a", "b", .reference, none, 5⟩]⟩]).notes.length ≤ 10000
    ∧ (((∀ S bs, (S, bs) ∈ validateLinks (Store.mk [⟨"a", "T", ["x"], .permanent, 0, 0, [], [],
          [⟨"a", "b", .reference, none, 5⟩]⟩])
        ↔ ∃ n ∈ (Store.mk [⟨"a", "T", ["x"], .permanent, 0, 0, [], [],
            [⟨"a", "b", .reference, none, 5⟩]⟩]).notes, n.id = S
          ∧ brokenTargets (Store.mk [⟨"a", "T", ["x"], .permanent, 0, 0, [], [],
              [⟨"a", "b", .reference, none, 5⟩]⟩]) n = bs ∧ bs ≠ [])
      ∧ (validateLinks (Store.mk [⟨"a", "T", ["x"], .permanent, 0, 0, [], [],
            [⟨"a", "b", .reference, none, 5⟩]⟩]) = []
          ↔ ∀ n ∈ (Store.mk [⟨"a", "T", ["x"], .permanent, 0, 0, [], [],
              [⟨"a", "b", .reference, none, 5⟩]⟩]).notes,
            brokenTargets (Store.mk [⟨"a", "T", ["x"], .permanent, 0, 0, [], [],
              [⟨"a", "b", .reference, none, 5⟩]⟩]) n = []))
    ∧ ((Store.mk [⟨"a", "T", ["x"], .permanent, 0, 0, [], [],
          [⟨"a", "b", .reference, none, 5⟩]⟩]).notes
            = [⟨"a", "T", ["x"], .permanent, 0, 0, [], [], [⟨"a", "b", .reference, none, 5⟩]⟩] →
        (⟨"a", "T", ["x"], .permanent, 0, 0, [], [],
          [⟨"a", "b", .reference, none, 5⟩]⟩ : StoredNote).links
            = [⟨"a", "b", .reference, none, 5⟩] →
        (⟨"a", "b", .reference, none, 5⟩ : StoredLink).targetId
            ≠ (⟨"a", "T", ["x"], .permanent, 0, 0, [], [],
                [⟨"a", "b", .reference, none, 5⟩]⟩ : StoredNote).id →
        validateLinks (Store.mk [⟨"a", "T", ["x"], .permanent, 0, 0, [], [],
            [⟨"a", "b", .reference, none, 5⟩]⟩]) = [("a", ["b"])]
        ∧ ∀ (B A' : Note) (lnk : Link) (t₂ t₃ : Nat),
            B.id = "b" → B.links = [] → A'.id = "a" → A'.links = [lnk] →
            lnk.target_id = "b" →
            ∃ s₂ r₂ s₃ r₃, (Store.mk [⟨"a", "T", ["x"], .permanent, 0, 0, [], [],
                [⟨"a", "b", .reference, none, 5⟩]⟩]).create t₂ B = .ok (s₂, r₂)
              ∧ s₂.update t₃ A' = .ok (s₃, r₃)
              ∧ validateLinks s₃ = [])) :=
  ⟨by decide,
    validate_links_characterization
      (Store.mk [⟨"a", "T", ["x"], .permanent, 0, 0, [], [],
        [⟨"a", "b", .reference, none, 5⟩]⟩]) (by decide)
      ⟨"a", "T", ["x"], .permanent, 0, 0, [], [], [⟨"a", "b", .reference, none, 5⟩]⟩
      ⟨"a", "b", .reference, none, 5⟩⟩

/-! ## Claim C4: merge strategy selection -/

theorem pyMaxBy_spec {α : Type} (key : α → Nat) :
    ∀ (vs : List α) (v : α),
      ∃ pre post, v :: vs = pre ++ pyMaxBy key v vs :: post
        ∧ (∀ w ∈ pre, key w < key (pyMaxBy key v vs))
        ∧ (∀ w ∈ v :: vs, key w ≤ key (pyMaxBy key v vs)) := by
  intro vs
  induction vs with
  | nil =>
    intro v
    refine ⟨[], [], rfl, by simp, ?_⟩
    intro w hw
    rw [List.mem_singleton.mp hw]
    exact le_refl _
  | cons x xs ih =>
    intro v
    have hstep : pyMaxBy key v (x :: xs) = pyMaxBy key (if key v < key x then x else v) xs := rfl
    by_cases hvx : key v < key x
    · rw [hstep, if_pos hvx]
      obtain ⟨pre, post, heq, hpre, hall⟩ := ih x
      refine ⟨v :: pre, post, ?_, ?_, ?_⟩
      · rw [List.cons_append, ← heq]
      · intro w hw
        rcases List.mem_cons.mp hw with h | h
        · rw [h]
          exact lt_of_lt_of_le hvx (hall x (List.mem_cons_self x xs))
        · exact hpre w h
      · intro w hw
        rcases List.mem_cons.mp hw with h | h
        · rw [h]
          exact le_of_lt (lt_of_lt_of_le hvx (hall x (List.mem_cons_self x xs)))
        · exact hall w h
    · rw [hstep, if_neg hvx]
      obtain ⟨pre, post, heq, hpre, hall⟩ := ih v
      have hle : key x ≤ key v := le_of_not_lt hvx
      cases pre with
      | nil =>
        rw [List.nil_append] at heq
        have h1 : v = pyMaxBy key v xs := (List.cons.injEq .. ▸ heq).1
        have h2 : xs = post := (List.cons.injEq .. ▸ heq).2
        refine ⟨[], x :: post, ?_, by simp, ?_⟩
        · rw [List.nil_append, ← h1, ← h2]
        · intro w hw
          rcases List.mem_cons.mp hw with h | h
          · rw [h, ← h1]
          · rcases List.mem_cons.mp h with h' | h'
            · rw [h', ← h1]
              exact hle
            · exact hall w (List.mem_cons_of_mem v h')
      | cons p pre₁ =>
        rw [List.cons_append] at heq
        have h1 : v = p := (List.cons.injEq .. ▸ heq).1
        have h2 : xs = pre₁ ++ pyMaxBy key v xs :: post := (List.cons.injEq .. ▸ heq).2
        refine ⟨v :: x :: pre₁, post, ?_, ?_, ?_⟩
        · show v :: x :: xs = v :: x :: (pre₁ ++ pyMaxBy key v xs :: post)
          rw [← h2]
        · intro w hw
          have hvlt : key v < key (pyMaxBy key v xs) := by
            have hp := hpre p (List.mem_cons_self p pre₁)
            rw [← h1] at hp
            exact hp
          rcases List.mem_cons.mp hw with h | h
          · rw [h]; exact hvlt
          · rcases List.mem_cons.mp h with h' | h'
            · rw [h']
              exact lt_of_le_of_lt hle hvlt
            · exact hpre w (List.mem_cons_of_mem p h')
        · intro w hw
          rcases List.mem_cons.mp hw with h | h
          · rw [h]
            exact hall v (List.mem_cons_self v xs)
          · rcases List.mem_cons.mp h with h' | h'
            · rw [h']
              exact le_trans hle (hall v (List.mem_cons_self v xs))
            · exact hall w (List.mem_cons_of_mem v h')

theorem pyMinBy_spec {α : Type} (key : α → Nat) :
    ∀ (vs : List α) (v : α),
      ∃ pre post, v :: vs = pre ++ pyMinBy key v vs :: post
        ∧ (∀ w ∈ pre, key (pyMinBy key v vs) < key w)
        ∧ (∀ w ∈ v :: vs, key (pyMinBy key v vs) ≤ key w) := by
  intro vs
  induction vs with
  | nil =>
    intro v
    refine ⟨[], [], rfl, by simp, ?_⟩
    intro w hw
    rw [List.mem_singleton.mp hw]
    exact le_refl _
  | cons x xs ih =>
    intro v
    have hstep : pyMinBy key v (x :: xs) = pyMinBy key (if key x < key v then x else v) xs := rfl
    by_cases hxv : key x < key v
    · rw [hstep, if_pos hxv]
      obtain ⟨pre, post, heq, hpre, hall⟩ := ih x
      refine ⟨v :: pre, post, ?_, ?_, ?_⟩
      · rw [List.cons_append, ← heq]
      · intro w hw
        rcases List.mem_cons.mp hw with h | h
        · rw [h]
          exact lt_of_le_of_lt (hall x (List.mem_cons_self x xs)) hxv
        · exact hpre w h
      · intro w hw
        rcases List.mem_cons.mp hw with h | h
        · rw [h]
          exact le_of_lt (lt_of_le_of_lt (hall x (List.mem_cons_self x xs)) hxv)
        · exact hall w h
    · rw [hstep, if_neg hxv]
      obtain ⟨pre, post, heq, hpre, hall⟩ := ih v
      have hle : key v ≤ key x := le_of_not_lt hxv
      cases pre with
      | nil =>
        rw [List.nil_append] at heq
        have h1 : v = pyMinBy key v xs := (List.cons.injEq .. ▸ heq).1
        have h2 : xs = post := (List.cons.injEq .. ▸ heq).2
        refine ⟨[], x :: post, ?_, by simp, ?_⟩
        · rw [List.nil_append, ← h1, ← h2]
        · intro w hw
          rcases List.mem_cons.mp hw with h | h
          · rw [h, ← h1]
          · rcases List.mem_cons.mp h with h' | h'
            · rw [h', ← h1]
              exact hle
            · exact hall w (List.mem_cons_of_mem v h')
      | cons p pre₁ =>
        rw [List.cons_append] at heq
        have h1 : v = p := (List.cons.injEq .. ▸ heq).1
        have h2 : xs = pre₁ ++ pyMinBy key v xs :: post := (List.cons.injEq .. ▸ heq).2
        refine ⟨v :: x :: pre₁, post, ?_, ?_, ?_⟩
        · show v :: x :: xs = v :: x :: (pre₁ ++ pyMinBy key v xs :: post)
          rw [← h2]
        · intro w hw
          have hvlt : key (pyMinBy key v xs) < key v := by
            have hp := hpre p (List.mem_cons_self p pre₁)
            rw [← h1] at hp
            exact hp
          rcases List.mem_cons.mp hw with h | h
          · rw [h]; exact hvlt
          · rcases List.mem_cons.mp h with h' | h'
            · rw [h']
              exact lt_of_lt_of_le hvlt hle
            · exact hpre w (List.mem_cons_of_mem p h')
        · intro w hw
          rcases List.mem_cons.mp hw with h | h
          · rw [h]
            exact hall v (List.mem_cons_self v xs)
          · rcases List.mem_cons.mp h with h' | h'
            · rw [h']
              exact le_trans (hall v (List.mem_cons_self v xs)) hle
            · exact hall w (List.mem_cons_of_mem v h')

/-- C4: for a (necessarily nonempty) version list of one id, in encounter
order, `newest` selects a version of maximum updated timestamp, `oldest`
one of minimum updated timestamp, `largest` one of maximum content
length — each time the earliest-encountered candidate: every version
before the selected one is strictly worse — and `first` selects the
first encountered version. -/
theorem merge_strategy_selection (v : Note × String) (vs : List (Note × String)) :
    (∃ w pre post, selectVersion "newest" (v :: vs) = some w
      ∧ v :: vs = pre ++ w :: post
      ∧ (∀ u ∈ pre, u.1.updated_at < w.1.updated_at)
      ∧ (∀ u ∈ v :: vs, u.1.updated_at ≤ w.1.updated_at))
    ∧ (∃ w pre post, selectVersion "oldest" (v :: vs) = some w
      ∧ v :: vs = pre ++ w :: post
      ∧ (∀ u ∈ pre, w.1.updated_at < u.1.updated_at)
      ∧ (∀ u ∈ v :: vs, w.1.updated_at ≤ u.1.updated_at))
    ∧ (∃ w pre post, selectVersion "largest" (v :: vs) = some w
      ∧ v :: vs = pre ++ w :: post
      ∧ (∀ u ∈ pre, contentLen u.1.content < contentLen w.1.content)
      ∧ (∀ u ∈ v :: vs, contentLen u.1.content ≤ contentLen w.1.content))
    ∧ selectVersion "first" (v :: vs) = some v := by
  refine ⟨?_, ?_, ?_, ?_⟩
  · obtain ⟨pre, post, heq, hpre, hall⟩ := pyMaxBy_spec (fun x => x.1.updated_at) vs v
    exact ⟨pyMaxBy (fun x => x.1.updated_at) v vs, pre, post, rfl, heq, hpre, hall⟩
  · obtain ⟨pre, post, heq, hpre, hall⟩ := pyMinBy_spec (fun x => x.1.updated_at) vs v
    exact ⟨pyMinBy (fun x => x.1.updated_at) v vs, pre, post, rfl, heq, hpre, hall⟩
  · obtain ⟨pre, post, heq, hpre, hall⟩ := pyMaxBy_spec (fun x => contentLen x.1.content) vs v
    exact ⟨pyMaxBy (fun x => contentLen x.1.content) v vs, pre, post, rfl, heq, hpre, hall⟩
  · rfl

/-! ## Claim C7: importing a file without an id -/

theorem parse_no_id {now : Nat} {f : MDFile}
    (hid : lookupKV "id" (fmSplit f.lines).1 = none) :
    parse_note_from_markdown now f
      = (none, ["No ID in " ++ fileName f ++ ", skipping"]) := by
  rw [parse_note_from_markdown]
  dsimp only
  rw [hid]
  rfl

/-- C7: importing a file whose header has no id field creates no note,
increments exactly the failed counter, records a warning containing
"No ID", and the surrounding directory import continues with the
remaining files instead of aborting. -/
theorem import_file_no_id (now : Nat) (f : MDFile) (updateExisting : Bool)
    (s : Store) (stats : ImportStats)
    (hid : lookupKV "id" (fmSplit f.lines).1 = none) :
    (import_single_file now f updateExisting s stats).1 = s
    ∧ (import_single_file now f updateExisting s stats).2.1
        = ⟨stats.total_files, stats.imported, stats.updated, stats.skipped,
            stats.failed + 1,
            stats.warnings ++ ["No ID in " ++ fileName f ++ ", skipping"]⟩
    ∧ (import_single_file now f updateExisting s stats).2.2 = false
    ∧ containsSub ("No ID in " ++ fileName f ++ ", skipping") "No ID" = true
    ∧ (¬ startsWithS (fileName f) "_" = true →
        ∀ rest : List MDFile,
          import_directory now (f :: rest) updateExisting s stats
            = (rest.filter (fun g => ¬ startsWithS (fileName g) "_")).foldl
                (fun acc g =>
                  let r := import_single_file now g updateExisting acc.1 acc.2
                  (r.1, r.2.1))
                (s, ⟨((f :: rest).filter (fun g => ¬ startsWithS (fileName g) "_")).length,
                  stats.imported, stats.updated, stats.skipped, stats.failed + 1,
                  stats.warnings ++ ["No ID in " ++ fileName f ++ ", skipping"]⟩)) := by
  have hstep : ∀ st : ImportStats, import_single_file now f updateExisting s st
      = (s, ⟨st.total_files, st.imported, st.updated, st.skipped,
          st.failed + 1,
          st.warnings ++ ["No ID in " ++ fileName f ++ ", skipping"]⟩, false) := by
    intro st
    rw [import_single_file, parse_no_id hid]
  refine ⟨by rw [hstep stats], by rw [hstep stats], by rw [hstep stats], ?_, ?_⟩
  · have : containsSub ("No ID in " ++ fileName f ++ ", skipping") "No ID"
        = (splitFirstCh ("No ID".data) (("No ID in " ++ fileName f ++ ", skipping").data)).isSome :=
      rfl
    rw [this]
    have hdata : ("No ID in " ++ fileName f ++ ", skipping").data
        = "No ID".data ++ (" in " ++ fileName f ++ ", skipping").data := rfl
    rw [hdata]
    have hpre : isPre ("No ID".data) ("No ID".data ++ (" in " ++ fileName f ++ ", skipping").data)
        = true := by
      have : ∀ (p rest : List Char), isPre p (p ++ rest) = true := by
        intro p
        induction p with
        | nil => intro rest; rfl
        | cons c cs ih =>
          intro rest
          rw [List.cons_append, isPre]
          rw [ih rest]
          simp
      exact this _ _
    cases hd : "No ID".data ++ (" in " ++ fileName f ++ ", skipping").data with
    | nil => rw [splitFirstCh, if_pos (by rw [← hd]; exact hpre)]; rfl
    | cons c cs => rw [splitFirstCh, if_pos (by rw [← hd]; exact hpre)]; rfl
  · intro hf rest
    rw [import_directory]
    dsimp only
    rw [List.filter_cons, if_pos (by simpa using hf), List.foldl_cons]
    dsimp only
    rw [hstep ⟨(f :: rest.filter (fun g => ¬ startsWithS (fileName g) "_")).length,
      stats.imported, stats.updated, stats.skipped, stats.failed, stats.warnings⟩]

/-- Witness for C7 at a concrete file. -/
theorem import_file_no_id_witness :
    lookupKV "id" (fmSplit (["---", "title: Note Without ID", "---", "", "x"] :
        List String)).1 = none
    ∧ ((import_single_file 3 ⟨"nid", ["---", "title: Note Without ID", "---", "", "x"]⟩ false
          (Store.mk []) ImportStats.init).1 = Store.mk []
      ∧ (import_single_file 3 ⟨"nid", ["---", "title: Note Without ID", "---", "", "x"]⟩ false
          (Store.mk []) ImportStats.init).2.1
          = ⟨0, 0, 0, 0, 0 + 1, [] ++ ["No ID in " ++ fileName ⟨"nid",
              ["---", "title: Note Without ID", "---", "", "x"]⟩ ++ ", skipping"]⟩
      ∧ (import_single_file 3 ⟨"nid", ["---", "title: Note Without ID", "---", "", "x"]⟩ false
          (Store.mk []) ImportStats.init).2.2 = false
      ∧ containsSub ("No ID in " ++ fileName ⟨"nid",
          ["---", "title: Note Without ID", "---", "", "x"]⟩ ++ ", skipping") "No ID" = true
      ∧ (¬ startsWithS (fileName ⟨"nid", ["---", "title: Note Without ID", "---", "", "x"]⟩)
            "_" = true →
          ∀ rest : List MDFile,
            import_directory 3 (⟨"nid", ["---", "title: Note Without ID", "---", "", "x"]⟩ :: rest)
                false (Store.mk []) ImportStats.init
              = (rest.filter (fun g => ¬ startsWithS (fileName g) "_")).foldl
                  (fun acc g =>
                    let r := import_single_file 3 g false acc.1 acc.2
                    (r.1, r.2.1))
                  (Store.mk [],
                    ⟨((⟨"nid", ["---", "title: Note Without ID", "---", "", "x"]⟩ ::
                        rest).filter (fun g => ¬ startsWithS (fileName g) "_")).length,
                      0, 0, 0, 0 + 1,
                      [] ++ ["No ID in " ++ fileName ⟨"nid",
                        ["---", "title: Note Without ID", "---", "", "x"]⟩ ++ ", skipping"]⟩))) :=
  ⟨by decide,
    import_file_no_id 3 ⟨"nid", ["---", "title: Note Without ID", "---", "", "x"]⟩ false
      (Store.mk []) ImportStats.init (by decide)⟩

/-! ## Claim C6: migrator fallbacks for missing id and title -/

theorem isPre_append : ∀ (p rest : List Char), isPre p (p ++ rest) = true := by
  intro p
  induction p with
  | nil => intro rest; rfl
  | cons c cs ih =>
    intro rest
    rw [List.cons_append, isPre, ih rest]
    simp

theorem splitFirstCh_isSome_of_isPre {pat l : List Char} (h : isPre pat l = true) :
    (splitFirstCh pat l).isSome = true := by
  cases l with
  | nil => rw [splitFirstCh, if_pos h]; rfl
  | cons c cs => rw [splitFirstCh, if_pos h]; rfl

theorem containsSub_of_data_append {s pat : String} (rest : List Char)
    (h : s.data = pat.data ++ rest) : containsSub s pat = true := by
  rw [containsSub, h]
  exact splitFirstCh_isSome_of_isPre (isPre_append _ _)

theorem tsOk_parse {v : Option String} (h : tsOk v = true) (fb : Nat) :
    ∃ n, tsParse v fb = some n := by
  rw [tsOk] at h
  cases v with
  | none => exact ⟨fb, rfl⟩
  | some s =>
    by_cases hs : (s == "") = true
    · refine ⟨fb, ?_⟩
      show (if (s == "") = true then some fb else fromiso s) = some fb
      rw [if_pos hs]
    · have hts : tsParse (some s) 0 = fromiso s := by
        show (if (s == "") = true then some 0 else fromiso s) = fromiso s
        rw [if_neg hs]
      rw [hts] at h
      obtain ⟨n, hn⟩ := Option.isSome_iff_exists.mp h
      refine ⟨n, ?_⟩
      show (if (s == "") = true then some fb else fromiso s) = some n
      rw [if_neg hs, hn]

/-- C6: the migration parser never fails on a missing id or title (given
timestamps it can handle): a header without an id yields a note whose id
is the file name stem, with a "No ID" warning recorded; a header without
a title takes the first level-1 heading's (nonempty) text, falling back
to "Untitled Note <id>" with a "No title" warning recorded. -/
theorem mig_parse_fallbacks (f : MDFile) (ctime mtime now : Nat)
    (hc : tsOk (lookupKV "created" (fmSplit f.lines).1) = true)
    (hu : tsOk (lookupKV "updated" (fmSplit f.lines).1) = true) :
    (lookupKV "id" (fmSplit f.lines).1 = none →
      ∃ note, (mig_parse_note_from_markdown f ctime mtime now).1 = some note
        ∧ note.id = f.stem
        ∧ ∃ w ∈ (mig_parse_note_from_markdown f ctime mtime now).2,
            containsSub w "No ID" = true)
    ∧ (lookupKV "title" (fmSplit f.lines).1 = none →
      ∃ note, (mig_parse_note_from_markdown f ctime mtime now).1 = some note
        ∧ (∀ t, firstHeading (stripLines (fmSplit f.lines).2) = some t → ¬ (t == "") = true →
            note.title = t)
        ∧ ((firstHeading (stripLines (fmSplit f.lines).2) = none
              ∨ firstHeading (stripLines (fmSplit f.lines).2) = some "") →
            note.title = "Untitled Note " ++ note.id
            ∧ ∃ w ∈ (mig_parse_note_from_markdown f ctime mtime now).2,
                containsSub w "No title" = true)) := by
  obtain ⟨c, hc'⟩ := tsOk_parse hc ctime
  obtain ⟨u, hu'⟩ := tsOk_parse hu mtime
  constructor
  · intro hid
    rw [mig_parse_note_from_markdown]
    dsimp only
    rw [hid, hc', hu']
    dsimp only
    refine ⟨_, rfl, rfl,
      ⟨"No ID in frontmatter for " ++ fileName f ++ ", using filename: " ++ f.stem, ?_, ?_⟩⟩
    · exact List.mem_append_left _ (List.mem_append_left _ (List.mem_cons_self _ _))
    · exact containsSub_of_data_append _ rfl
  · intro htitle
    rw [mig_parse_note_from_markdown]
    dsimp only
    rw [htitle, hc', hu']
    dsimp only [Option.getD]
    rw [if_pos (show (("" : String) == "") = true from rfl)]
    refine ⟨_, rfl, ?_, ?_⟩
    · intro t hfh ht
      rw [hfh]
      dsimp only [Option.getD]
      rw [if_neg ht]
    · intro hcase
      rcases hcase with hfh | hfh
      · rw [hfh]
        dsimp only [Option.getD]
        rw [if_pos (show (("" : String) == "") = true from rfl)]
        refine ⟨rfl, ?_⟩
        refine ⟨_, List.mem_append_left _ (List.mem_append_right _ (List.mem_cons_self _ _)), ?_⟩
        exact containsSub_of_data_append _ rfl
      · rw [hfh]
        dsimp only [Option.getD]
        rw [if_pos (show (("" : String) == "") = true from rfl)]
        refine ⟨rfl, ?_⟩
        refine ⟨_, List.mem_append_left _ (List.mem_append_right _ (List.mem_cons_self _ _)), ?_⟩
        exact containsSub_of_data_append _ rfl

/-- Witness for C6 at a concrete file without id and title. -/
theorem mig_parse_fallbacks_witness :
    tsOk (lookupKV "created" (fmSplit (["---", "tags: a", "---", "", "body"] :
        List String)).1) = true
    ∧ tsOk (lookupKV "updated" (fmSplit (["---", "tags: a", "---", "", "body"] :
        List String)).1) = true
    ∧ ((lookupKV "id" (fmSplit (⟨"migfile", ["---", "tags: a", "---", "", "body"]⟩ :
          MDFile).lines).1 = none →
        ∃ note, (mig_parse_note_from_markdown ⟨"migfile", ["---", "tags: a", "---", "", "body"]⟩
            1 2 3).1 = some note
          ∧ note.id = "migfile"
          ∧ ∃ w ∈ (mig_parse_note_from_markdown ⟨"migfile", ["---", "tags: a", "---", "", "body"]⟩
              1 2 3).2, containsSub w "No ID" = true)
      ∧ (lookupKV "title" (fmSplit (⟨"migfile", ["---", "tags: a", "---", "", "body"]⟩ :
          MDFile).lines).1 = none →
        ∃ note, (mig_parse_note_from_markdown ⟨"migfile", ["---", "tags: a", "---", "", "body"]⟩
            1 2 3).1 = some note
          ∧ (∀ t, firstHeading (stripLines (fmSplit (⟨"migfile",
                ["---", "tags: a", "---", "", "body"]⟩ : MDFile).lines).2) = some t →
              ¬ (t == "") = true → note.title = t)
          ∧ ((firstHeading (stripLines (fmSplit (⟨"migfile",
                ["---", "tags: a", "---", "", "body"]⟩ : MDFile).lines).2) = none
              ∨ firstHeading (stripLines (fmSplit (⟨"migfile",
                ["---", "tags: a", "---", "", "body"]⟩ : MDFile).lines).2) = some "") →
            note.title = "Untitled Note " ++ note.id
            ∧ ∃ w ∈ (mig_parse_note_from_markdown ⟨"migfile",
                ["---", "tags: a", "---", "", "body"]⟩ 1 2 3).2,
                containsSub w "No title" = true))) :=
  ⟨by decide, by decide,
    mig_parse_fallbacks ⟨"migfile", ["---", "tags: a", "---", "", "body"]⟩ 1 2 3
      (by decide) (by decide)⟩

/-! ## String lemmas for the codec round trips -/

theorem mk_data_eq (s : String) : String.mk s.data = s := rfl

theorem trimL_eq_of_headNonWS {s : String} (h : headNonWS s = true) : trimL s = s := by
  rw [trimL]
  have hd : s.data.dropWhile Char.isWhitespace = s.data := by
    cases hd : s.data with
    | nil => rfl
    | cons c cs =>
      rw [headNonWS, hd] at h
      simp only [List.head?] at h
      rw [List.dropWhile_cons, if_neg (by simpa using h)]
  rw [hd]

theorem trimR_eq_of_lastNonWS {s : String} (h : lastNonWS s = true) : trimR s = s := by
  rw [trimR]
  have hd : s.data.reverse.dropWhile Char.isWhitespace = s.data.reverse := by
    cases hd : s.data.reverse with
    | nil => rfl
    | cons c cs =>
      rw [lastNonWS, hd] at h
      simp only [List.head?] at h
      rw [List.dropWhile_cons, if_neg (by simpa using h)]
  rw [hd, List.reverse_reverse]

theorem trimS_eq_of_nonWS {s : String} (h1 : headNonWS s = true) (h2 : lastNonWS s = true) :
    trimS s = s := by
  rw [trimS, trimL_eq_of_headNonWS h1, trimR_eq_of_lastNonWS h2]

theorem isPre_iff {p : List Char} : ∀ {l : List Char}, isPre p l = true ↔ ∃ r, l = p ++ r := by
  induction p with
  | nil =>
    intro l
    constructor
    · intro _; exact ⟨l, rfl⟩
    · intro _; rfl
  | cons c cs ih =>
    intro l
    cases l with
    | nil =>
      constructor
      · intro h; exact absurd h (by rw [isPre]; simp)
      · rintro ⟨r, hr⟩; exact absurd hr (by simp)
    | cons x xs =>
      rw [isPre, Bool.and_eq_true, beq_iff_eq, ih]
      constructor
      · rintro ⟨hcx, r, hr⟩
        exact ⟨r, by rw [List.cons_append, ← hcx, ← hr]⟩
      · rintro ⟨r, hr⟩
        rw [List.cons_append] at hr
        exact ⟨((List.cons.injEq .. ▸ hr).1).symm, r, (List.cons.injEq .. ▸ hr).2⟩

theorem splitFirstCh_isSome_of_decomp {pat a b : List Char} :
    ∀ {l : List Char}, l = a ++ pat ++ b → (splitFirstCh pat l).isSome = true := by
  induction a with
  | nil =>
    intro l h
    rw [List.nil_append] at h
    subst h
    cases hl : pat ++ b with
    | nil =>
      have hp : pat = [] := (List.append_eq_nil.mp hl).1
      rw [hp]
      rfl
    | cons c cs =>
      rw [splitFirstCh, if_pos (isPre_iff.mpr ⟨b, hl.symm⟩)]
      rfl
  | cons x xs ih =>
    intro l h
    subst h
    rw [List.cons_append, List.cons_append, splitFirstCh]
    by_cases hp : isPre pat (x :: (xs ++ pat ++ b)) = true
    · rw [if_pos hp]; rfl
    · rw [if_neg hp]
      have hih := ih (l := xs ++ pat ++ b) rfl
      cases hsp : splitFirstCh pat (xs ++ pat ++ b) with
      | none => exact absurd hih (by rw [hsp]; simp)
      | some p => rfl

theorem containsSub_of_decomp {s pat : String} {a b : List Char}
    (h : s.data = a ++ pat.data ++ b) : containsSub s pat = true := by
  rw [containsSub]
  exact splitFirstCh_isSome_of_decomp h

theorem data_trimL (s : String) : (trimL s).data = s.data.dropWhile Char.isWhitespace := rfl

theorem data_trimR (s : String) :
    (trimR s).data = (s.data.reverse.dropWhile Char.isWhitespace).reverse := rfl

theorem trimS_decomp (s : String) : ∃ a b, s.data = a ++ (trimS s).data ++ b := by
  refine ⟨s.data.takeWhile Char.isWhitespace,
    ((trimL s).data.reverse.takeWhile Char.isWhitespace).reverse, ?_⟩
  have h2 : (trimS s).data ++ ((trimL s).data.reverse.takeWhile Char.isWhitespace).reverse
      = (trimL s).data := by
    rw [trimS, data_trimR]
    calc ((trimL s).data.reverse.dropWhile Char.isWhitespace).reverse
          ++ ((trimL s).data.reverse.takeWhile Char.isWhitespace).reverse
        = ((trimL s).data.reverse.takeWhile Char.isWhitespace
            ++ (trimL s).data.reverse.dropWhile Char.isWhitespace).reverse := by
          rw [List.reverse_append]
      _ = (trimL s).data.reverse.reverse := by rw [List.takeWhile_append_dropWhile]
      _ = (trimL s).data := List.reverse_reverse _
  rw [List.append_assoc, h2, data_trimL, List.takeWhile_append_dropWhile]

theorem containsSub_of_startsWith_trim {l pat : String}
    (h : startsWithS (trimS l) pat = true) : containsSub l pat = true := by
  obtain ⟨r, hr⟩ := isPre_iff.mp h
  obtain ⟨a, b, hab⟩ := trimS_decomp l
  refine containsSub_of_decomp (a := a) (b := r ++ b) ?_
  rw [hab, hr]
  simp [List.append_assoc]

theorem isBlank_false_of_headNonWS {s : String} (h : headNonWS s = true) :
    isBlank s = false := by
  rw [headNonWS] at h
  cases hd : s.data with
  | nil => rw [hd] at h; exact absurd h (by simp [List.head?])
  | cons c cs =>
    rw [hd] at h
    simp only [List.head?] at h
    simp only [decide_eq_true_eq] at h
    rw [isBlank, hd, List.all_cons]
    simp [h]

theorem isBlank_false_of_lastNonWS {s : String} (h : lastNonWS s = true) :
    isBlank s = false := by
  rw [lastNonWS] at h
  cases hd : s.data.reverse with
  | nil => rw [hd] at h; exact absurd h (by simp [List.head?])
  | cons c cs =>
    rw [hd] at h
    simp only [List.head?] at h
    simp only [decide_eq_true_eq] at h
    rw [isBlank, ← List.all_reverse, hd, List.all_cons]
    simp [h]

theorem headNonWS_of_trimS_eq {s : String} (hne : s.data ≠ []) (h : trimS s = s) :
    headNonWS s = true := by
  cases hd : s.data with
  | nil => exact absurd hd hne
  | cons c cs =>
    rw [headNonWS, hd]
    simp only [List.head?, decide_eq_true_eq]
    intro hws
    have hlen1 : (trimS s).data.length ≤ (trimL s).data.length := by
      show (trimR (trimL s)).data.length ≤ (trimL s).data.length
      rw [data_trimR, List.length_reverse]
      calc ((trimL s).data.reverse.dropWhile Char.isWhitespace).length
          ≤ (trimL s).data.reverse.length :=
            (List.dropWhile_sublist Char.isWhitespace).length_le
        _ = (trimL s).data.length := List.length_reverse _
    have hlen2 : (trimL s).data.length ≤ cs.length := by
      rw [data_trimL, hd, List.dropWhile_cons_of_pos hws]
      exact (List.dropWhile_sublist Char.isWhitespace).length_le
    have heq : (trimS s).data.length = s.data.length := by rw [h]
    rw [hd] at heq
    simp only [List.length_cons] at heq
    omega

theorem lastNonWS_of_trimS_eq {s : String} (hne : s.data ≠ []) (h : trimS s = s) :
    lastNonWS s = true := by
  have hh : headNonWS s = true := headNonWS_of_trimS_eq hne h
  have hL : trimL s = s := trimL_eq_of_headNonWS hh
  rw [trimS, hL] at h
  cases hd : s.data.reverse with
  | nil =>
    have : s.data = [] := by
      have := congrArg List.reverse hd
      simpa using this
    exact absurd this hne
  | cons c cs =>
    rw [lastNonWS, hd]
    simp only [List.head?, decide_eq_true_eq]
    intro hws
    have h1 : (trimR s).data.length ≤ cs.length := by
      rw [data_trimR, List.length_reverse, hd, List.dropWhile_cons_of_pos hws]
      exact (List.dropWhile_sublist Char.isWhitespace).length_le
    have h2 : s.data.length = cs.length + 1 := by
      rw [← List.length_reverse s.data, hd]
      rfl
    rw [h] at h1
    omega

theorem stripLines_blank_cons (ls : List String) : stripLines ("" :: ls) = stripLines ls := by
  rw [stripLines, stripLines]
  rw [List.dropWhile_cons_of_pos (by decide)]

theorem trimLastR_id : ∀ (ls : List String) (d : String),
    lastNonWS (ls.getLastD d) = true → trimLastR ls = ls := by
  intro ls
  induction ls with
  | nil => intro d h; rfl
  | cons x xs ih =>
    intro d h
    cases xs with
    | nil =>
      show [trimR x] = [x]
      have h' : lastNonWS x = true := h
      rw [trimR_eq_of_lastNonWS h']
    | cons y ys =>
      show x :: trimLastR (y :: ys) = x :: y :: ys
      rw [ih x h]

theorem stripLines_id {ls : List String} (h1 : headNonWS (ls.headD "") = true)
    (h2 : lastNonWS (ls.getLastD "") = true) : stripLines ls = ls := by
  cases ls with
  | nil => exact absurd h1 (by decide)
  | cons x xs =>
    have h1' : headNonWS x = true := h1
    have ha : (x :: xs).dropWhile isBlank = x :: xs :=
      List.dropWhile_cons_of_neg (by simp [isBlank_false_of_headNonWS h1'])
    have hb : (x :: xs).reverse.dropWhile isBlank = (x :: xs).reverse := by
      cases hr : (x :: xs).reverse with
      | nil => exact absurd (congrArg List.length hr) (by simp)
      | cons y ys =>
        have hy : y = (x :: xs).getLastD "" := by
          have h0 : (x :: xs).reverse.head? = (x :: xs).getLast? := List.head?_reverse _
          rw [hr] at h0
          rw [List.getLastD_eq_getLast?, ← h0]
          rfl
        refine List.dropWhile_cons_of_neg ?_
        rw [hy, isBlank_false_of_lastNonWS h2]
        simp
    rw [stripLines]
    rw [ha, hb, List.reverse_reverse]
    show trimLastR (trimL x :: xs) = x :: xs
    rw [trimL_eq_of_headNonWS h1']
    exact trimLastR_id _ "" h2

theorem stripLines_of_ready {ls : List String} (h : contentReady ls = true) :
    stripLines ls = ls := by
  rw [contentReady, Bool.and_eq_true] at h
  exact stripLines_id h.1 h.2

theorem headD_append {α : Type} (a b : List α) (d : α) (h : a ≠ []) :
    (a ++ b).headD d = a.headD d := by
  cases a with
  | nil => exact absurd rfl h
  | cons x xs => rfl

theorem getLastD_append {α : Type} (a b : List α) (d : α) (h : b ≠ []) :
    (a ++ b).getLastD d = b.getLastD d := by
  rw [List.getLastD_eq_getLast?, List.getLastD_eq_getLast?, List.getLast?_append]
  cases hb : b.getLast? with
  | none =>
    cases b with
    | nil => exact absurd rfl h
    | cons y ys =>
      rw [List.getLast?_eq_head?_reverse, List.head?_eq_none_iff] at hb
      simp at hb
  | some v => rfl

/-! ## First-occurrence splitting and the header line codec -/

theorem not_mem_of_all_ne {c : Char} {l : List Char} {p : Char → Bool}
    (h : l.all p = true) (hc : p c = false) : c ∉ l := by
  intro hmem
  have h2 := (List.all_eq_true.mp h) c hmem
  rw [hc] at h2
  exact Bool.false_ne_true h2

theorem splitFirstCh_append {c : Char} {ps : List Char} : ∀ {a : List Char} (b : List Char),
    c ∉ a → splitFirstCh (c :: ps) (a ++ (c :: ps) ++ b) = some (a, b) := by
  intro a
  induction a with
  | nil =>
    intro b _
    have hpre : isPre (c :: ps) (c :: (ps ++ b)) = true := by
      rw [← List.cons_append]
      exact isPre_append _ _
    rw [List.nil_append, List.cons_append, splitFirstCh, if_pos hpre]
    rw [← List.cons_append, List.drop_left]
  | cons x xs ih =>
    intro b hc
    have hx : ¬ isPre (c :: ps) (x :: (xs ++ (c :: ps) ++ b)) = true := by
      rw [isPre]
      simp only [Bool.and_eq_true, beq_iff_eq]
      rintro ⟨hcx, -⟩
      exact hc (hcx ▸ List.mem_cons_self _ _)
    rw [List.cons_append, List.cons_append, splitFirstCh, if_neg hx]
    rw [ih b (fun hm => hc (List.mem_cons_of_mem _ hm))]
    rfl

theorem splitFirstS_of_decomp {s pat : String} {a b : List Char} {c : Char} {ps : List Char}
    (hpat : pat.data = c :: ps) (hs : s.data = a ++ pat.data ++ b) (hc : c ∉ a) :
    splitFirstS s pat = some (⟨a⟩, ⟨b⟩) := by
  rw [hpat] at hs
  rw [splitFirstS, hpat, hs, splitFirstCh_append _ hc]
  rfl

theorem renderLine_ne_delim (p : String × String) : (renderLine p == "---") = false := by
  rw [beq_eq_false_iff_ne]
  intro he
  have hmem : ':' ∈ (renderLine p).data := by
    rw [renderLine, String.data_append, String.data_append]
    refine List.mem_append_left _ (List.mem_append_right _ ?_)
    decide
  rw [he] at hmem
  revert hmem
  decide

theorem splitAtDelim_append : ∀ {hdr : List String},
    (∀ l ∈ hdr, (l == "---") = false) →
    ∀ rest, splitAtDelim (hdr ++ "---" :: rest) = some (hdr, rest) := by
  intro hdr
  induction hdr with
  | nil =>
    intro _ rest
    rw [List.nil_append, splitAtDelim, if_pos (by decide)]
  | cons x xs ih =>
    intro h rest
    have hx : ¬ (x == "---") = true := by
      rw [h x (List.mem_cons_self _ _)]
      simp
    rw [List.cons_append, splitAtDelim, if_neg hx,
      ih (fun l hl => h l (List.mem_cons_of_mem _ hl)) rest]
    rfl

theorem parse_render {p : String × String} (hk : plainKey p.1 = true)
    (hv : plainValue p.2 = true) : parseHeaderLine (renderLine p) = some p := by
  rw [plainKey, Bool.and_eq_true] at hk
  rw [plainValue, Bool.and_eq_true, Bool.and_eq_true] at hv
  obtain ⟨⟨hv1, hv2⟩, hv3⟩ := hv
  obtain ⟨hk1, hk2⟩ := hk
  have hcolon : ':' ∉ p.1.data := not_mem_of_all_ne hk1 (by decide)
  have hdata : (renderLine p).data = p.1.data ++ ": ".data ++ (renderVal p.2).data := by
    rw [renderLine, String.data_append, String.data_append]
  have hsplit : splitFirstS (renderLine p) ": " =
      some (⟨p.1.data⟩, ⟨(renderVal p.2).data⟩) :=
    splitFirstS_of_decomp rfl hdata hcolon
  rw [parseHeaderLine, hsplit, Option.map_some']
  rw [mk_data_eq, mk_data_eq]
  have hk2' : trimS p.1 = p.1 := by simpa using hk2
  have hv1' : trimS p.2 = p.2 := by simpa using hv1
  have hv2' : ¬ (p.2 == "''") = true := by simpa using hv2
  by_cases hemp : p.2 = ""
  · have hrv : renderVal p.2 = "''" := by rw [renderVal, if_pos (by rw [hemp]; rfl)]
    rw [hrv, hk2']
    show some (p.1, parseVal "''") = some p
    rw [show parseVal "''" = "" from by decide, ← hemp]
  · have hrv : renderVal p.2 = p.2 := by
      rw [renderVal, if_neg (by simpa using hemp)]
    rw [hrv, hk2', hv1', parseVal, if_neg hv2']

theorem parseHeader_render : ∀ {L : List (String × String)},
    (∀ p ∈ L, parseHeaderLine (renderLine p) = some p) →
    parseHeader (L.map renderLine) = L := by
  intro L
  induction L with
  | nil => intro _; rfl
  | cons p ps ih =>
    intro h
    rw [List.map_cons, parseHeader, List.filterMap_cons, h p (List.mem_cons_self _ _)]
    show p :: List.filterMap parseHeaderLine (List.map renderLine ps) = p :: ps
    have h2 := ih (fun q hq => h q (List.mem_cons_of_mem _ hq))
    rw [parseHeader] at h2
    rw [h2]

theorem lookupKV_mem_nodup {k v : String} : ∀ {L : List (String × String)},
    (L.map Prod.fst).Nodup → (k, v) ∈ L → lookupKV k L = some v := by
  intro L
  induction L with
  | nil => intro _ hm; exact absurd hm (List.not_mem_nil _)
  | cons p ps ih =>
    intro hnd hm
    rw [List.map_cons, List.nodup_cons] at hnd
    rw [lookupKV]
    by_cases hpk : (p.1 == k) = true
    · rw [if_pos hpk]
      have hpk' : p.1 = k := by simpa using hpk
      rcases List.mem_cons.mp hm with he | hm'
      · rw [← he]
      · exfalso
        apply hnd.1
        rw [hpk']
        exact List.mem_map.mpr ⟨(k, v), hm', rfl⟩
    · rw [if_neg hpk]
      have hne : (k, v) ≠ p := fun he => hpk (by rw [← he]; simp)
      exact ih hnd.2 ((List.mem_cons.mp hm).resolve_left hne)

theorem exportMeta_fold : ∀ (l acc : List (String × String)),
    (∀ p ∈ l, acc.any (fun q => q.1 == p.1) = false) →
    (∀ p ∈ l, migrationKeys.contains p.1 = false) →
    (l.map Prod.fst).Nodup →
    l.foldl (fun acc p =>
      if acc.any (fun q => q.1 == p.1) || migrationKeys.contains p.1 then acc
      else acc ++ [p]) acc = acc ++ l := by
  intro l
  induction l with
  | nil => intro acc _ _ _; simp
  | cons p ps ih =>
    intro acc h1 h2 hnd
    rw [List.map_cons, List.nodup_cons] at hnd
    rw [List.foldl_cons]
    rw [if_neg (by rw [h1 p (List.mem_cons_self _ _), h2 p (List.mem_cons_self _ _)]; simp)]
    rw [ih (acc ++ [p]) ?ha ?hb hnd.2]
    · rw [List.append_assoc]
      rfl
    case ha =>
      intro q hq
      rw [List.any_append, h1 q (List.mem_cons_of_mem _ hq)]
      have hne : ¬ p.1 = q.1 := fun he => hnd.1 (he ▸ List.mem_map.mpr ⟨q, hq, rfl⟩)
      simp [hne]
    case hb =>
      intro q hq
      exact h2 q (List.mem_cons_of_mem _ hq)

theorem contains_false_of_not_true {l : List String} {a : String}
    (h : ¬ l.contains a = true) : l.contains a = false := by
  cases hc : l.contains a
  · rfl
  · exact absurd hc h

theorem exportMeta_eq (N : Note)
    (hmeta : ∀ p ∈ N.metadata, plainKey p.1 = true ∧ plainValue p.2 = true
        ∧ ¬ reservedKeys.contains p.1 = true ∧ ¬ migrationKeys.contains p.1 = true)
    (hnd : (N.metadata.map Prod.fst).Nodup) :
    exportMeta N = [("id", N.id), ("title", N.title), ("type", N.note_type.value),
      ("tags", joinComma (N.tags.map (·.name))),
      ("created", isofmt N.created_at), ("updated", isofmt N.updated_at)] ++ N.metadata := by
  rw [exportMeta]
  refine exportMeta_fold N.metadata _ ?_ ?_ hnd
  · intro p hp
    have hnm : p.1 ∉ reservedKeys := fun hm => (hmeta p hp).2.2.1 (List.elem_iff.mpr hm)
    rw [reservedKeys] at hnm
    simp only [List.mem_cons, List.not_mem_nil, or_false, not_or] at hnm
    simp only [List.any_cons, List.any_nil, Bool.or_eq_false_iff, beq_eq_false_iff_ne]
    exact ⟨Ne.symm hnm.1, Ne.symm hnm.2.1, Ne.symm hnm.2.2.1, Ne.symm hnm.2.2.2.1,
      Ne.symm hnm.2.2.2.2.1, Ne.symm hnm.2.2.2.2.2, trivial⟩
  · intro p hp
    exact contains_false_of_not_true (hmeta p hp).2.2.2

/-! ## The decimal timestamp codec round trip -/

theorem parseNatAux_append (xs ys : List Char) : ∀ acc,
    parseNatAux acc (xs ++ ys) = (parseNatAux acc xs).bind (fun a => parseNatAux a ys) := by
  induction xs with
  | nil => intro acc; rfl
  | cons c cs ih =>
    intro acc
    rw [List.cons_append]
    show (match digVal c with
        | some d => parseNatAux (acc * 10 + d) (cs ++ ys)
        | none => none) =
      ((match digVal c with
        | some d => parseNatAux (acc * 10 + d) cs
        | none => none).bind fun a => parseNatAux a ys)
    cases digVal c with
    | none => rfl
    | some d => exact ih (acc * 10 + d)

theorem digVal_digCh (d : Nat) : digVal (digCh d) = some (d % 10) := by
  have h : d % 10 = 0 ∨ d % 10 = 1 ∨ d % 10 = 2 ∨ d % 10 = 3 ∨ d % 10 = 4 ∨ d % 10 = 5
      ∨ d % 10 = 6 ∨ d % 10 = 7 ∨ d % 10 = 8 ∨ d % 10 = 9 := by omega
  rcases h with h|h|h|h|h|h|h|h|h|h <;> simp only [digCh, h] <;> decide

theorem parseNatAux_single (a : Nat) (c : Char) (d : Nat) (h : digVal c = some d) :
    parseNatAux a [c] = some (a * 10 + d) := by
  show (match digVal c with
      | some d => parseNatAux (a * 10 + d) []
      | none => none) = some (a * 10 + d)
  rw [h]
  rfl

theorem parseNatAux_digits : ∀ (n : Nat), ∀ (acc : Nat),
    parseNatAux acc (((natDigitsAux n).map digCh).reverse)
      = some (acc * 10 ^ (natDigitsAux n).length + n) := by
  intro n
  induction n using Nat.strong_induction_on with
  | _ n ih =>
    match n with
    | 0 => intro acc; simp [natDigitsAux, parseNatAux]
    | m + 1 =>
      intro acc
      rw [natDigitsAux, List.map_cons, List.reverse_cons, parseNatAux_append]
      rw [ih ((m + 1) / 10) (Nat.div_lt_self (Nat.succ_pos m) (by omega)) acc]
      rw [Option.some_bind]
      rw [parseNatAux_single _ _ _ (digVal_digCh ((m + 1) % 10))]
      have harith : (acc * 10 ^ (natDigitsAux ((m + 1) / 10)).length + (m + 1) / 10) * 10
          + (m + 1) % 10 % 10
          = acc * 10 ^ ((m + 1) % 10 :: natDigitsAux ((m + 1) / 10)).length + (m + 1) := by
        rw [List.length_cons, pow_succ, ← mul_assoc]
        generalize acc * 10 ^ (natDigitsAux ((m + 1) / 10)).length = A
        omega
      rw [harith]

theorem natDigitsAux_ne_nil {n : Nat} (h : n ≠ 0) : natDigitsAux n ≠ [] := by
  match n with
  | 0 => exact absurd rfl h
  | m + 1 =>
    simp only [natDigitsAux]
    simp

theorem natToStr_data_ne_nil (n : Nat) : (natToStr n).data ≠ [] := by
  by_cases h0 : n = 0
  · rw [h0]; decide
  · rw [natToStr, if_neg h0]
    show ((natDigitsAux n).map digCh).reverse ≠ []
    simpa using natDigitsAux_ne_nil h0

theorem fromiso_isofmt (n : Nat) : fromiso (isofmt n) = some n := by
  by_cases h : n = 0
  · rw [h]; decide
  · rw [fromiso, isofmt, parseNatS]
    have hd : (natToStr n).data = ((natDigitsAux n).map digCh).reverse := by
      rw [natToStr, if_neg h]
    cases hl : (natToStr n).data with
    | nil => exact absurd hl (natToStr_data_ne_nil n)
    | cons c cs =>
      show parseNatAux 0 (c :: cs) = some n
      rw [← hl, hd, parseNatAux_digits n 0]
      simp

theorem natToStr_ne_empty (n : Nat) : (natToStr n == "") = false := by
  rw [beq_eq_false_iff_ne]
  intro he
  exact natToStr_data_ne_nil n (by rw [he])

theorem mem_natToStr_digit {n : Nat} {c : Char} (h : c ∈ (natToStr n).data) :
    ∃ d, c = digCh d := by
  by_cases h0 : n = 0
  · rw [h0] at h
    rw [show (natToStr 0).data = ['0'] from by decide] at h
    have hc : c = '0' := by simpa using h
    exact ⟨0, by rw [hc]; rfl⟩
  · rw [natToStr, if_neg h0] at h
    have h' : c ∈ ((natDigitsAux n).map digCh).reverse := h
    rw [List.mem_reverse, List.mem_map] at h'
    obtain ⟨d, _, hd⟩ := h'
    exact ⟨d, hd.symm⟩

theorem digCh_props (d : Nat) : (digCh d).isWhitespace = false
    ∧ ((digCh d) == '\n') = false ∧ ((digCh d) == '\'') = false := by
  have h : d % 10 = 0 ∨ d % 10 = 1 ∨ d % 10 = 2 ∨ d % 10 = 3 ∨ d % 10 = 4 ∨ d % 10 = 5
      ∨ d % 10 = 6 ∨ d % 10 = 7 ∨ d % 10 = 8 ∨ d % 10 = 9 := by omega
  rcases h with h|h|h|h|h|h|h|h|h|h <;> simp only [digCh, h] <;> decide

theorem plainValue_natToStr (n : Nat) : plainValue (natToStr n) = true := by
  have hchars : ∀ c ∈ (natToStr n).data, ∃ d, c = digCh d := fun _ hc => mem_natToStr_digit hc
  have hne := natToStr_data_ne_nil n
  have htrim : trimS (natToStr n) = natToStr n := by
    refine trimS_eq_of_nonWS ?_ ?_
    · cases hd : (natToStr n).data with
      | nil => exact absurd hd hne
      | cons c cs =>
        rw [headNonWS, hd]
        simp only [List.head?, decide_eq_true_eq]
        obtain ⟨d, hdig⟩ := hchars c (by rw [hd]; exact List.mem_cons_self _ _)
        rw [hdig, (digCh_props d).1]
        simp
    · cases hd : (natToStr n).data.reverse with
      | nil => exact absurd (by simpa using congrArg List.reverse hd) hne
      | cons c cs =>
        rw [lastNonWS, hd]
        simp only [List.head?, decide_eq_true_eq]
        obtain ⟨d, hdig⟩ := hchars c
          (by rw [← List.mem_reverse, hd]; exact List.mem_cons_self _ _)
        rw [hdig, (digCh_props d).1]
        simp
  have hq : (natToStr n == "''") = false := by
    rw [beq_eq_false_iff_ne]
    intro he
    have hmem : '\'' ∈ (natToStr n).data := by rw [he]; decide
    obtain ⟨d, hd⟩ := hchars _ hmem
    have hp := (digCh_props d).2.2
    rw [← hd] at hp
    simp at hp
  rw [plainValue]
  simp only [Bool.and_eq_true]
  refine ⟨⟨?_, ?_⟩, ?_⟩
  · rw [htrim]
    simp
  · simp [hq]
  · rw [List.all_eq_true]
    intro x hx
    obtain ⟨d, hd⟩ := hchars x hx
    rw [hd]
    simp [(digCh_props d).2.1]

/-! ## The tag list round trip -/

theorem NoteType.ofString_value (t : NoteType) : NoteType.ofString t.value = some t := by
  cases t <;> rfl

theorem plainValue_value (t : NoteType) : plainValue t.value = true := by
  cases t <;> decide

theorem tags_map_mk (l : List Tag) : l.map (fun t => Tag.mk t.name) = l := by
  induction l with
  | nil => rfl
  | cons x xs ih => rw [List.map_cons, ih]

theorem data_eq_nil_iff {t : String} : t.data = [] ↔ t = "" :=
  ⟨fun hd => by rw [← mk_data_eq t, hd], fun h => by rw [h]⟩

theorem append_ne_empty {a b : String} (hb : b ≠ "") : a ++ b ≠ "" := by
  intro he
  apply hb
  have hd := congrArg String.data he
  rw [String.data_append] at hd
  exact data_eq_nil_iff.mp (List.append_eq_nil.mp hd).2

theorem append_ne_empty_left {a b : String} (ha : a ≠ "") : a ++ b ≠ "" := by
  intro he
  apply ha
  have hd := congrArg String.data he
  rw [String.data_append] at hd
  exact data_eq_nil_iff.mp (List.append_eq_nil.mp hd).1

theorem plainTag_parts {t : String} (h : plainTagName t = true) :
    t ≠ "" ∧ t ≠ "''" ∧ trimS t = t ∧ ',' ∉ t.data ∧ '\n' ∉ t.data := by
  rw [plainTagName] at h
  simp only [Bool.and_eq_true] at h
  obtain ⟨⟨⟨h1, h2⟩, h3⟩, h4⟩ := h
  refine ⟨by simpa using h1, by simpa using h2, by simpa using h3,
    not_mem_of_all_ne h4 (by decide), not_mem_of_all_ne h4 (by decide)⟩

theorem headNonWS_of_plain {t : String} (h : plainTagName t = true) : headNonWS t = true := by
  obtain ⟨h1, _, h3, _, _⟩ := plainTag_parts h
  exact headNonWS_of_trimS_eq (fun hd => h1 (data_eq_nil_iff.mp hd)) h3

theorem lastNonWS_of_plain {t : String} (h : plainTagName t = true) : lastNonWS t = true := by
  obtain ⟨h1, _, h3, _, _⟩ := plainTag_parts h
  exact lastNonWS_of_trimS_eq (fun hd => h1 (data_eq_nil_iff.mp hd)) h3

theorem headNonWS_append {a b : String} (ha : a ≠ "") :
    headNonWS (a ++ b) = headNonWS a := by
  cases hd : a.data with
  | nil => exact absurd (data_eq_nil_iff.mp hd) ha
  | cons c cs =>
    rw [headNonWS, headNonWS, String.data_append, hd]
    rfl

theorem lastNonWS_append {a b : String} (hb : b ≠ "") :
    lastNonWS (a ++ b) = lastNonWS b := by
  rw [lastNonWS, lastNonWS, String.data_append, List.reverse_append]
  cases hd : b.data.reverse with
  | nil =>
    exact absurd (data_eq_nil_iff.mp (by simpa using congrArg List.reverse hd)) hb
  | cons c cs => rfl

theorem splitChar_ne_nil (sep : Char) : ∀ (l : List Char), splitChar sep l ≠ [] := by
  intro l
  cases l with
  | nil => simp [splitChar]
  | cons c cs =>
    rw [splitChar]
    cases h : splitChar sep cs with
    | nil => simp
    | cons g gs =>
      show (if (c == sep) = true then [] :: g :: gs else (c :: g) :: gs) ≠ []
      split <;> simp

theorem splitChar_no_sep : ∀ {l : List Char} {sep : Char}, sep ∉ l → splitChar sep l = [l] := by
  intro l
  induction l with
  | nil => intro sep _; rfl
  | cons c cs ih =>
    intro sep h
    have hcs : (c == sep) = false := by
      rw [beq_eq_false_iff_ne]
      exact fun he => h (he ▸ List.mem_cons_self _ _)
    rw [splitChar, ih (fun hm => h (List.mem_cons_of_mem _ hm))]
    simp [hcs]

theorem splitChar_append {sep : Char} : ∀ {a : List Char}, sep ∉ a →
    ∀ r, splitChar sep (a ++ sep :: r) = a :: splitChar sep r := by
  intro a
  induction a with
  | nil =>
    intro _ r
    rw [List.nil_append, splitChar]
    cases hr : splitChar sep r with
    | nil => exact absurd hr (splitChar_ne_nil sep r)
    | cons g gs => simp
  | cons c cs ih =>
    intro h r
    have hcs : (c == sep) = false := by
      rw [beq_eq_false_iff_ne]
      exact fun he => h (he ▸ List.mem_cons_self _ _)
    rw [List.cons_append, splitChar, ih (fun hm => h (List.mem_cons_of_mem _ hm)) r]
    simp [hcs]

theorem trimL_space_cons (l : List Char) : trimL ⟨' ' :: l⟩ = trimL ⟨l⟩ := by
  show String.mk ((' ' :: l).dropWhile Char.isWhitespace)
      = String.mk (l.dropWhile Char.isWhitespace)
  rw [List.dropWhile_cons_of_pos (by decide)]

theorem trimS_space_cons (l : List Char) : trimS ⟨' ' :: l⟩ = trimS ⟨l⟩ := by
  rw [trimS, trimS, trimL_space_cons]

theorem map_trimS_space_head (l : List Char) :
    ((splitChar ',' (' ' :: l)).map (fun cs => (⟨cs⟩ : String))).map trimS
    = ((splitChar ',' l).map (fun cs => (⟨cs⟩ : String))).map trimS := by
  rw [splitChar]
  cases hg : splitChar ',' l with
  | nil => exact absurd hg (splitChar_ne_nil _ _)
  | cons g gs =>
    show (((' ' :: g) :: gs).map (fun cs => (⟨cs⟩ : String))).map trimS
        = ((g :: gs).map (fun cs => (⟨cs⟩ : String))).map trimS
    simp only [List.map_cons]
    rw [trimS_space_cons]

theorem tags_roundtrip : ∀ {names : List String},
    (∀ t ∈ names, plainTagName t = true) →
    ((splitCommaS (joinComma names)).map trimS).filter (fun t => ¬ t == "") = names := by
  intro names
  induction names with
  | nil => intro _; decide
  | cons n ns ih =>
    intro h
    obtain ⟨hn1, _, hn2, hn3, _⟩ := plainTag_parts (h n (List.mem_cons_self _ _))
    cases ns with
    | nil =>
      show ((splitCommaS n).map trimS).filter (fun t => ¬ t == "") = [n]
      rw [splitCommaS, splitChar_no_sep hn3]
      simp only [List.map_cons, List.map_nil, mk_data_eq]
      rw [hn2]
      rw [List.filter_cons_of_pos (by simpa using hn1)]
      rfl
    | cons m ms =>
      have hJ : joinComma (n :: m :: ms) = n ++ ", " ++ joinComma (m :: ms) := rfl
      have hdata : (n ++ ", " ++ joinComma (m :: ms)).data
          = n.data ++ ',' :: ' ' :: (joinComma (m :: ms)).data := by
        rw [String.data_append, String.data_append,
          show (", " : String).data = [',', ' '] from rfl]
        simp [List.append_assoc]
      rw [hJ, splitCommaS, hdata, splitChar_append hn3]
      simp only [List.map_cons, mk_data_eq]
      rw [hn2, map_trimS_space_head]
      rw [List.filter_cons_of_pos (by simpa using hn1)]
      rw [show ((splitChar ',' (joinComma (m :: ms)).data).map (fun cs => (⟨cs⟩ : String)))
          = splitCommaS (joinComma (m :: ms)) from rfl]
      rw [ih (fun t ht => h t (List.mem_cons_of_mem _ ht))]

theorem joinComma_ne_empty : ∀ {names : List String},
    (∀ t ∈ names, plainTagName t = true) → names ≠ [] → joinComma names ≠ "" := by
  intro names h hne
  cases names with
  | nil => exact absurd rfl hne
  | cons n ns =>
    cases ns with
    | nil => exact (plainTag_parts (h n (List.mem_cons_self _ _))).1
    | cons m ms =>
      show n ++ ", " ++ joinComma (m :: ms) ≠ ""
      exact append_ne_empty_left (append_ne_empty (by decide))

theorem joinComma_data_mem {c : Char} : ∀ {names : List String},
    c ∈ (joinComma names).data → (∃ t ∈ names, c ∈ t.data) ∨ c = ',' ∨ c = ' ' := by
  intro names
  induction names with
  | nil => intro h; exact absurd h (List.not_mem_nil c)
  | cons n ns ih =>
    intro h
    cases ns with
    | nil => exact Or.inl ⟨n, List.mem_cons_self _ _, h⟩
    | cons m ms =>
      have hd : (joinComma (n :: m :: ms)).data
          = n.data ++ [',', ' '] ++ (joinComma (m :: ms)).data := by
        show (n ++ ", " ++ joinComma (m :: ms)).data = _
        rw [String.data_append, String.data_append]
      rw [hd] at h
      rcases List.mem_append.mp h with h2 | h3
      · rcases List.mem_append.mp h2 with h4 | h5
        · exact Or.inl ⟨n, List.mem_cons_self _ _, h4⟩
        · simp only [List.mem_cons, List.not_mem_nil, or_false] at h5
          rcases h5 with h6 | h6
          · exact Or.inr (Or.inl h6)
          · exact Or.inr (Or.inr h6)
      · rcases ih h3 with ⟨t, ht, hc⟩ | hr
        · exact Or.inl ⟨t, List.mem_cons_of_mem _ ht, hc⟩
        · exact Or.inr hr

theorem joinComma_last : ∀ {names : List String},
    (∀ t ∈ names, plainTagName t = true) → names ≠ [] →
    lastNonWS (joinComma names) = true := by
  intro names
  induction names with
  | nil => intro _ hne; exact absurd rfl hne
  | cons n ns ih =>
    intro h _
    cases ns with
    | nil => exact lastNonWS_of_plain (h n (List.mem_cons_self _ _))
    | cons m ms =>
      show lastNonWS (n ++ ", " ++ joinComma (m :: ms)) = true
      rw [lastNonWS_append
        (joinComma_ne_empty (fun t ht => h t (List.mem_cons_of_mem _ ht)) (by simp))]
      exact ih (fun t ht => h t (List.mem_cons_of_mem _ ht)) (by simp)

theorem plainValue_joinComma {names : List String}
    (h : ∀ t ∈ names, plainTagName t = true) : plainValue (joinComma names) = true := by
  cases names with
  | nil => decide
  | cons n ns =>
    have hn := plainTag_parts (h n (List.mem_cons_self _ _))
    rw [plainValue]
    simp only [Bool.and_eq_true]
    refine ⟨⟨?_, ?_⟩, ?_⟩
    · have hhead : headNonWS (joinComma (n :: ns)) = true := by
        cases ns with
        | nil => exact headNonWS_of_plain (h n (List.mem_cons_self _ _))
        | cons m ms =>
          show headNonWS (n ++ ", " ++ joinComma (m :: ms)) = true
          rw [headNonWS_append (append_ne_empty (by decide)), headNonWS_append hn.1]
          exact headNonWS_of_plain (h n (List.mem_cons_self _ _))
      have hlast := joinComma_last h (by simp)
      rw [trimS_eq_of_nonWS hhead hlast]
      simp
    · cases ns with
      | nil =>
        show (¬ (n == "''") : Bool) = true
        simpa using hn.2.1
      | cons m ms =>
        show (¬ ((n ++ ", " ++ joinComma (m :: ms)) == "''") : Bool) = true
        simp only [decide_eq_true_eq, beq_iff_eq]
        intro he
        have hlen := congrArg (fun s => s.data.length) he
        simp only [String.data_append, List.length_append] at hlen
        simp only [show (", " : String).data = [',', ' '] from rfl,
          show ("''" : String).data = ['\'', '\''] from rfl,
          List.length_cons, List.length_nil] at hlen
        have h3 : 1 ≤ n.data.length := by
          rcases Nat.eq_zero_or_pos n.data.length with h0 | h0
          · exact absurd (data_eq_nil_iff.mp (List.length_eq_zero.mp h0)) hn.1
          · exact h0
        have h4 : 1 ≤ (joinComma (m :: ms)).data.length := by
          rcases Nat.eq_zero_or_pos (joinComma (m :: ms)).data.length with h0 | h0
          · exact absurd (data_eq_nil_iff.mp (List.length_eq_zero.mp h0))
              (joinComma_ne_empty (fun t ht => h t (List.mem_cons_of_mem _ ht)) (by simp))
          · exact h0
        omega
    · rw [List.all_eq_true]
      intro c hc
      rcases joinComma_data_mem hc with ⟨t, ht, hct⟩ | hc' | hc'
      · have hnl := (plainTag_parts (h t ht)).2.2.2.2
        simp only [decide_eq_true_eq, beq_iff_eq]
        exact fun he => hnl (he ▸ hct)
      · rw [hc']; decide
      · rw [hc']; decide

/-! ## The generated link bullet line round trip -/

theorem wfLink_parts {l : Link} (h : wfLink l = true) :
    trimS l.target_id = l.target_id ∧ '[' ∉ l.target_id.data ∧ ']' ∉ l.target_id.data
      ∧ ∀ d, l.description = some d →
        d ≠ "" ∧ trimS d = d ∧ '[' ∉ d.data ∧ ']' ∉ d.data := by
  rw [wfLink, Bool.and_eq_true] at h
  obtain ⟨h1, h2⟩ := h
  rw [Bool.and_eq_true] at h1
  obtain ⟨h11, h12⟩ := h1
  refine ⟨by simpa using h11, not_mem_of_all_ne h12 (by decide),
    not_mem_of_all_ne h12 (by decide), ?_⟩
  intro d hd
  rw [hd] at h2
  simp only [Bool.and_eq_true] at h2
  obtain ⟨⟨h21, h22⟩, h23⟩ := h2
  exact ⟨by simpa using h21, by simpa using h22, not_mem_of_all_ne h23 (by decide),
    not_mem_of_all_ne h23 (by decide)⟩

theorem value_no_brackets (k : LinkType) : '[' ∉ k.value.data ∧ ']' ∉ k.value.data := by
  cases k <;> exact ⟨by decide, by decide⟩

theorem trim_row (k : LinkType) :
    trimS ⟨['-', ' '] ++ k.value.data ++ [' ']⟩ = "- " ++ k.value := by
  cases k <;> decide

theorem kind_chain (k : LinkType) :
    (LinkType.ofString (if startsWithS ("- " ++ k.value) "- " = true
        then trimS ⟨("- " ++ k.value).data.drop 2⟩
        else "- " ++ k.value)).getD .reference = k := by
  cases k <;> decide

theorem parseLinkLine_linkLine (now : Nat) (sid : String) (l : Link)
    (hwf : wfLink l = true) :
    parseLinkLine now sid (linkLine l) =
      some ⟨sid, l.target_id, l.link_type, some (l.description.getD ""), some now⟩ := by
  obtain ⟨htid_trim, htid_lb, htid_rb, hdesc⟩ := wfLink_parts hwf
  have hnotin1 : '[' ∉ ['-', ' '] ++ l.link_type.value.data ++ [' '] := by
    intro hm
    rcases List.mem_append.mp hm with hm2 | hm3
    · rcases List.mem_append.mp hm2 with hm4 | hm5
      · revert hm4; decide
      · exact (value_no_brackets l.link_type).1 hm5
    · revert hm3; decide
  rcases hld : l.description with _ | d
  · have hL : linkLine l = "- " ++ l.link_type.value ++ " [[" ++ l.target_id ++ "]]" := by
      rw [linkLine, hld]
    have hdata1 : (linkLine l).data
        = (['-', ' '] ++ l.link_type.value.data ++ [' ']) ++ "[[".data
          ++ (l.target_id.data ++ "]]".data ++ ([] : List Char)) := by
      rw [hL]
      simp only [String.data_append,
        show ("- " : String).data = ['-', ' '] from rfl,
        show (" [[" : String).data = [' ', '[', '['] from rfl,
        show ("[[" : String).data = ['[', '['] from rfl,
        show ("]]" : String).data = [']', ']'] from rfl,
        List.append_assoc, List.cons_append, List.nil_append, List.append_nil]
    have hsplit1 : splitFirstS (linkLine l) "[[" =
        some (⟨['-', ' '] ++ l.link_type.value.data ++ [' ']⟩,
          ⟨l.target_id.data ++ "]]".data ++ ([] : List Char)⟩) :=
      splitFirstS_of_decomp rfl hdata1 hnotin1
    have hsplit2 : splitFirstS (⟨l.target_id.data ++ "]]".data ++ ([] : List Char)⟩ : String)
        "]]" = some (⟨l.target_id.data⟩, ⟨([] : List Char)⟩) :=
      splitFirstS_of_decomp rfl rfl htid_rb
    have hc1 : containsSub (linkLine l) "[[" = true := containsSub_of_decomp hdata1
    have hc2 : containsSub (linkLine l) "]]" = true := by
      refine containsSub_of_decomp
        (a := (['-', ' '] ++ l.link_type.value.data ++ [' ']) ++ "[[".data ++ l.target_id.data)
        (b := ([] : List Char)) ?_
      rw [hdata1]
      simp [List.append_assoc]
    rw [parseLinkLine, if_pos ⟨hc1, hc2⟩, hsplit1]
    dsimp only
    rw [hsplit2]
    dsimp only
    simp only [mk_data_eq]
    rw [htid_trim, trim_row, kind_chain]
    rw [show trimS (⟨([] : List Char)⟩ : String) = "" from by decide]
    rfl
  · obtain ⟨hd1, hd2, hd3, hd4⟩ := hdesc d hld
    have hL : linkLine l
        = "- " ++ l.link_type.value ++ " [[" ++ l.target_id ++ "]]" ++ " " ++ d := by
      rw [linkLine, hld]
      dsimp only
      rw [if_neg (by simpa using hd1)]
    have hdata1 : (linkLine l).data
        = (['-', ' '] ++ l.link_type.value.data ++ [' ']) ++ "[[".data
          ++ (l.target_id.data ++ "]]".data ++ (' ' :: d.data)) := by
      rw [hL]
      simp only [String.data_append,
        show ("- " : String).data = ['-', ' '] from rfl,
        show (" [[" : String).data = [' ', '[', '['] from rfl,
        show ("[[" : String).data = ['[', '['] from rfl,
        show ("]]" : String).data = [']', ']'] from rfl,
        show (" " : String).data = [' '] from rfl,
        List.append_assoc, List.cons_append, List.nil_append]
    have hsplit1 : splitFirstS (linkLine l) "[[" =
        some (⟨['-', ' '] ++ l.link_type.value.data ++ [' ']⟩,
          ⟨l.target_id.data ++ "]]".data ++ (' ' :: d.data)⟩) :=
      splitFirstS_of_decomp rfl hdata1 hnotin1
    have hsplit2 : splitFirstS (⟨l.target_id.data ++ "]]".data ++ (' ' :: d.data)⟩ : String)
        "]]" = some (⟨l.target_id.data⟩, ⟨' ' :: d.data⟩) :=
      splitFirstS_of_decomp rfl rfl htid_rb
    have hc1 : containsSub (linkLine l) "[[" = true := containsSub_of_decomp hdata1
    have hc2 : containsSub (linkLine l) "]]" = true := by
      refine containsSub_of_decomp
        (a := (['-', ' '] ++ l.link_type.value.data ++ [' ']) ++ "[[".data ++ l.target_id.data)
        (b := ' ' :: d.data) ?_
      rw [hdata1]
      simp [List.append_assoc]
    rw [parseLinkLine, if_pos ⟨hc1, hc2⟩, hsplit1]
    dsimp only
    rw [hsplit2]
    dsimp only
    rw [trimS_space_cons]
    simp only [mk_data_eq]
    rw [htid_trim, hd2, trim_row, kind_chain]
    rfl

theorem linkLine_data_head (l : Link) : ∃ r, (linkLine l).data = '-' :: ' ' :: r := by
  rcases hld : l.description with _ | d
  · refine ⟨(l.link_type.value ++ " [[" ++ l.target_id ++ "]]").data, ?_⟩
    rw [linkLine, hld]
    show ("- " ++ l.link_type.value ++ " [[" ++ l.target_id ++ "]]").data = _
    simp only [String.data_append, show ("- " : String).data = ['-', ' '] from rfl,
      List.append_assoc, List.cons_append, List.nil_append]
  · by_cases hde : (d == "") = true
    · refine ⟨(l.link_type.value ++ " [[" ++ l.target_id ++ "]]").data, ?_⟩
      rw [linkLine, hld]
      dsimp only
      rw [if_pos hde]
      show ("- " ++ l.link_type.value ++ " [[" ++ l.target_id ++ "]]").data = _
      simp only [String.data_append, show ("- " : String).data = ['-', ' '] from rfl,
        List.append_assoc, List.cons_append, List.nil_append]
    · refine ⟨(l.link_type.value ++ " [[" ++ l.target_id ++ "]]" ++ " " ++ d).data, ?_⟩
      rw [linkLine, hld]
      dsimp only
      rw [if_neg hde]
      show ("- " ++ l.link_type.value ++ " [[" ++ l.target_id ++ "]]" ++ " " ++ d).data = _
      simp only [String.data_append, show ("- " : String).data = ['-', ' '] from rfl,
        List.append_assoc, List.cons_append, List.nil_append]

theorem linkLine_headNonWS (l : Link) : headNonWS (linkLine l) = true := by
  obtain ⟨r, hr⟩ := linkLine_data_head l
  rw [headNonWS, hr]
  rfl

theorem linkLine_lastNonWS (l : Link) (h : wfLink l = true) :
    lastNonWS (linkLine l) = true := by
  obtain ⟨-, -, -, hdesc⟩ := wfLink_parts h
  rcases hld : l.description with _ | d
  · have hL : linkLine l = ("- " ++ l.link_type.value ++ " [[" ++ l.target_id) ++ "]]" := by
      rw [linkLine, hld]
    rw [hL, lastNonWS_append (by decide)]
    decide
  · obtain ⟨hd1, hd2, -, -⟩ := hdesc d hld
    have hL : linkLine l
        = ("- " ++ l.link_type.value ++ " [[" ++ l.target_id ++ "]]" ++ " ") ++ d := by
      rw [linkLine, hld]
      dsimp only
      rw [if_neg (by simpa using hd1)]
    rw [hL, lastNonWS_append hd1]
    exact lastNonWS_of_trimS_eq (fun hdn => hd1 (data_eq_nil_iff.mp hdn)) hd2

theorem linkLine_trim (l : Link) (h : wfLink l = true) : trimS (linkLine l) = linkLine l :=
  trimS_eq_of_nonWS (linkLine_headNonWS l) (linkLine_lastNonWS l h)

theorem isPre_head_ne {p c : Char} {ps cs : List Char} (h : (p == c) = false) :
    isPre (p :: ps) (c :: cs) = false := by
  rw [isPre, h]
  simp

theorem linkLine_not_heading (l : Link) : startsWithS (linkLine l) "## Links" = false
    ∧ startsWithS (linkLine l) "## " = false
    ∧ startsWithS (linkLine l) "- " = true := by
  obtain ⟨r, hr⟩ := linkLine_data_head l
  rw [startsWithS, startsWithS, startsWithS, hr]
  refine ⟨?_, ?_, ?_⟩
  · rw [show ("## Links" : String).data = '#' :: "# Links".data from rfl]
    exact isPre_head_ne (by decide)
  · rw [show ("## " : String).data = '#' :: "# ".data from rfl]
    exact isPre_head_ne (by decide)
  · rw [show ("- " : String).data = ['-', ' '] from rfl]
    simp [isPre]

/-! ## The link-section scan over exported content -/

theorem no_heading_of_linesContain {content : List String}
    (h : linesContain content "## Links" = false) :
    ∀ ln ∈ content, startsWithS (trimS ln) "## Links" = false := by
  intro ln hln
  cases hs : startsWithS (trimS ln) "## Links"
  · rfl
  · exfalso
    have hc := containsSub_of_startsWith_trim hs
    rw [linesContain] at h
    have h2 : content.any (fun l => containsSub l "## Links") = true :=
      List.any_eq_true.mpr ⟨ln, hln, hc⟩
    rw [h2] at h
    exact Bool.false_ne_true h.symm

theorem extractLinksAux_outside (now : Nat) (sid : String) : ∀ (content : List String),
    (∀ ln ∈ content, startsWithS (trimS ln) "## Links" = false) →
    ∀ rest, extractLinksAux now sid false (content ++ rest)
      = extractLinksAux now sid false rest := by
  intro content
  induction content with
  | nil => intro _ rest; rw [List.nil_append]
  | cons x xs ih =>
    intro h rest
    rw [List.cons_append, extractLinksAux]
    rw [if_neg (by simp [h x (List.mem_cons_self _ _)])]
    rw [if_neg (fun hc => Bool.false_ne_true hc.1)]
    rw [if_neg (fun hc => Bool.false_ne_true hc.1)]
    exact ih (fun l hl => h l (List.mem_cons_of_mem _ hl)) rest

theorem extractLinksAux_blank (now : Nat) (sid : String) (b : Bool) (rest : List String) :
    extractLinksAux now sid b ("" :: rest) = extractLinksAux now sid b rest := by
  rw [extractLinksAux]
  rw [if_neg (by decide)]
  rw [if_neg (fun hc => by exact absurd hc.2 (by decide))]
  rw [if_neg (fun hc => by exact absurd hc.2 (by decide))]

theorem extractLinksAux_heading (now : Nat) (sid : String) (b : Bool) (rest : List String) :
    extractLinksAux now sid b ("## Links" :: rest)
      = extractLinksAux now sid true rest := by
  rw [extractLinksAux]
  rw [if_pos (by decide)]

theorem extractLinksAux_section (now : Nat) (sid : String) : ∀ (L : List Link),
    (∀ l ∈ L, wfLink l = true) →
    extractLinksAux now sid true (L.map linkLine)
      = L.map (fun l =>
          (⟨sid, l.target_id, l.link_type, some (l.description.getD ""), some now⟩ : Link)) := by
  intro L
  induction L with
  | nil => intro _; rfl
  | cons l ls ih =>
    intro h
    have hwf := h l (List.mem_cons_self _ _)
    obtain ⟨hnh1, hnh2, hbul⟩ := linkLine_not_heading l
    have htr := linkLine_trim l hwf
    rw [List.map_cons, extractLinksAux]
    rw [htr]
    rw [if_neg (by simp [hnh1])]
    rw [if_neg (fun hc => Bool.false_ne_true (hnh2 ▸ hc.2))]
    rw [if_pos ⟨rfl, hbul⟩]
    rw [parseLinkLine_linkLine now sid l hwf]
    show _ :: extractLinksAux now sid true (ls.map linkLine) = _
    rw [ih (fun x hx => h x (List.mem_cons_of_mem _ hx)), List.map_cons]

theorem extract_links_no_heading (now : Nat) (sid : String) (content : List String)
    (h : ∀ ln ∈ content, startsWithS (trimS ln) "## Links" = false) :
    extract_links_from_content now sid content = [] := by
  rw [extract_links_from_content]
  have h2 := extractLinksAux_outside now sid content h []
  rw [List.append_nil] at h2
  rw [h2]
  rfl

theorem extract_links_exported (now : Nat) (sid : String) (content : List String)
    (L : List Link) (h : ∀ ln ∈ content, startsWithS (trimS ln) "## Links" = false)
    (hwf : ∀ l ∈ L, wfLink l = true) :
    extract_links_from_content now sid (content ++ ["", "## Links"] ++ L.map linkLine)
      = L.map (fun l =>
          (⟨sid, l.target_id, l.link_type, some (l.description.getD ""), some now⟩ : Link)) := by
  rw [extract_links_from_content, List.append_assoc]
  rw [show (["", "## Links"] ++ L.map linkLine) = "" :: "## Links" :: L.map linkLine from rfl]
  rw [extractLinksAux_outside now sid content h]
  rw [extractLinksAux_blank, extractLinksAux_heading]
  exact extractLinksAux_section now sid L hwf

/-! ## The exported body and its re-parse -/

theorem exportBody_no_links (N : Note) (h : N.links = []) :
    exportBody N = stripLines N.content := by
  rw [exportBody, h]
  rw [if_neg (fun hc => hc.1 rfl), List.append_nil]

theorem exportBody_with_links (N : Note) (hnl : linesContain N.content "## Links" = false)
    (hne : N.links ≠ []) :
    exportBody N = stripLines N.content ++ ["", "## Links"] ++ N.links.map linkLine := by
  rw [exportBody, if_pos ?_]
  · rw [List.append_assoc]
  · constructor
    · intro hie
      exact hne (List.isEmpty_iff.mp hie)
    · intro hlc
      rw [hnl] at hlc
      exact Bool.false_ne_true hlc

theorem lastNonWS_map_linkLine : ∀ (L : List Link) (d : String),
    (∀ l ∈ L, wfLink l = true) → L ≠ [] →
    lastNonWS ((L.map linkLine).getLastD d) = true := by
  intro L
  induction L with
  | nil => intro d _ hne; exact absurd rfl hne
  | cons l ls ih =>
    intro d h _
    cases ls with
    | nil => exact linkLine_lastNonWS l (h l (List.mem_cons_self _ _))
    | cons m ms =>
      exact ih (linkLine l) (fun x hx => h x (List.mem_cons_of_mem _ hx)) (by simp)

theorem exportBody_strip (N : Note) (hwf : wfNote N)
    (hnl : linesContain N.content "## Links" = false) :
    stripLines (exportBody N) = exportBody N := by
  have hwf' := hwf
  obtain ⟨-, -, -, -, hlinks, -, -, hstrip, hready⟩ := hwf'
  by_cases hne : N.links = []
  · rw [exportBody_no_links N hne, hstrip, hstrip]
  · rw [exportBody_with_links N hnl hne, hstrip]
    have hcr := hready hne
    rw [contentReady, Bool.and_eq_true] at hcr
    have hcne : N.content ≠ [] := by
      intro hc
      rw [hc] at hcr
      exact absurd hcr.1 (by decide)
    refine stripLines_id ?_ ?_
    · rw [List.append_assoc, headD_append _ _ _ hcne]
      exact hcr.1
    · have hmapne : N.links.map linkLine ≠ [] := by simpa using hne
      rw [getLastD_append _ _ _ hmapne]
      exact lastNonWS_map_linkLine N.links "" hlinks hne

theorem tags_name_mk (l : List Tag) : (l.map (·.name)).map Tag.mk = l := by
  induction l with
  | nil => rfl
  | cons x xs ih => simp only [List.map_cons, ih]

/-! ## Decoding an encoded note: the master round-trip computation -/

theorem fmSplit_delim (rest : List String) : fmSplit ("---" :: rest)
    = match splitAtDelim rest with
      | some (hdr, after) => (parseHeader hdr, stripLines after)
      | none => ([], stripLines ("---" :: rest)) := rfl

theorem decode_encode_full (now : Nat) (stem : String) (N : Note) (hwf : wfNote N)
    (hnl : linesContain N.content "## Links" = false) :
    parse_note_from_markdown now ⟨stem, export_note_to_markdown N⟩ =
      (some { id := N.id, title := N.title, content := exportBody N,
              note_type := N.note_type, tags := N.tags,
              links := N.links.map (fun l =>
                (⟨N.id, l.target_id, l.link_type, some (l.description.getD ""),
                  some now⟩ : Link)),
              created_at := N.created_at, updated_at := N.updated_at,
              metadata := (List.insertionSort pairLE (exportMeta N)).filter
                (fun p => ¬ reservedKeys.contains p.1) }, []) := by
  have hwf' := hwf
  obtain ⟨hid_pv, hid_ne, htitle_pv, htags, hlinks, hmeta, hnd, hstrip, hready⟩ := hwf'
  have hEM : exportMeta N = [("id", N.id), ("title", N.title), ("type", N.note_type.value),
      ("tags", joinComma (N.tags.map (·.name))),
      ("created", isofmt N.created_at), ("updated", isofmt N.updated_at)] ++ N.metadata :=
    exportMeta_eq N hmeta hnd
  have hplain : ∀ p ∈ exportMeta N, plainKey p.1 = true ∧ plainValue p.2 = true := by
    intro p hp
    rw [hEM] at hp
    rcases List.mem_append.mp hp with hb | hm
    · simp only [List.mem_cons, List.not_mem_nil, or_false] at hb
      rcases hb with h|h|h|h|h|h <;> subst h
      · exact ⟨show plainKey "id" = true from by decide, hid_pv⟩
      · exact ⟨show plainKey "title" = true from by decide, htitle_pv⟩
      · exact ⟨show plainKey "type" = true from by decide, plainValue_value N.note_type⟩
      · refine ⟨show plainKey "tags" = true from by decide, plainValue_joinComma ?_⟩
        intro t ht
        rw [List.mem_map] at ht
        obtain ⟨tg, htg, hte⟩ := ht
        rw [← hte]
        exact htags tg htg
      · exact ⟨show plainKey "created" = true from by decide, plainValue_natToStr N.created_at⟩
      · exact ⟨show plainKey "updated" = true from by decide, plainValue_natToStr N.updated_at⟩
    · exact ⟨(hmeta p hm).1, (hmeta p hm).2.1⟩
  have hSFperm : (List.insertionSort pairLE (exportMeta N)).Perm (exportMeta N) :=
    List.perm_insertionSort pairLE _
  have hSFplain : ∀ p ∈ List.insertionSort pairLE (exportMeta N),
      plainKey p.1 = true ∧ plainValue p.2 = true :=
    fun p hp => hplain p (hSFperm.mem_iff.mp hp)
  have hPH : parseHeader ((List.insertionSort pairLE (exportMeta N)).map renderLine)
      = List.insertionSort pairLE (exportMeta N) :=
    parseHeader_render (fun p hp => parse_render (hSFplain p hp).1 (hSFplain p hp).2)
  have hdelim : ∀ l ∈ (List.insertionSort pairLE (exportMeta N)).map renderLine,
      (l == "---") = false := by
    intro l hl
    rw [List.mem_map] at hl
    obtain ⟨p, -, hp⟩ := hl
    rw [← hp]
    exact renderLine_ne_delim p
  have hFS : fmSplit (export_note_to_markdown N)
      = (List.insertionSort pairLE (exportMeta N), exportBody N) := by
    rw [export_note_to_markdown, fmDumps]
    have hSA : splitAtDelim ((List.insertionSort pairLE (exportMeta N)).map renderLine
        ++ ["---", ""] ++ exportBody N)
        = some ((List.insertionSort pairLE (exportMeta N)).map renderLine,
            "" :: exportBody N) := by
      have h0 := splitAtDelim_append hdelim ("" :: exportBody N)
      rw [show (List.insertionSort pairLE (exportMeta N)).map renderLine ++ ["---", ""]
          ++ exportBody N = (List.insertionSort pairLE (exportMeta N)).map renderLine
          ++ "---" :: ("" :: exportBody N) from by
        simp [List.append_assoc]]
      exact h0
    rw [show (("---" :: (List.insertionSort pairLE (exportMeta N)).map renderLine)
        ++ ["---", ""] ++ exportBody N)
        = "---" :: ((List.insertionSort pairLE (exportMeta N)).map renderLine
          ++ ["---", ""] ++ exportBody N) from by simp]
    rw [fmSplit_delim, hSA]
    show (parseHeader ((List.insertionSort pairLE (exportMeta N)).map renderLine),
        stripLines ("" :: exportBody N)) = _
    rw [hPH, stripLines_blank_cons, exportBody_strip N hwf hnl]
  have hkeys : ((List.insertionSort pairLE (exportMeta N)).map Prod.fst).Nodup := by
    refine (List.Perm.nodup_iff (List.Perm.map Prod.fst hSFperm)).mpr ?_
    rw [hEM, List.map_append, List.nodup_append]
    refine ⟨show (["id", "title", "type", "tags", "created", "updated"] :
      List String).Nodup from by decide, hnd, ?_⟩
    intro a ha hb
    rw [List.mem_map] at hb
    obtain ⟨p, hp, hpe⟩ := hb
    apply (hmeta p hp).2.2.1
    refine List.elem_iff.mpr ?_
    rw [hpe]
    exact ha
  have hlook : ∀ (k v : String),
      (k, v) ∈ [("id", N.id), ("title", N.title), ("type", N.note_type.value),
        ("tags", joinComma (N.tags.map (·.name))),
        ("created", isofmt N.created_at), ("updated", isofmt N.updated_at)] →
      lookupKV k (List.insertionSort pairLE (exportMeta N)) = some v := by
    intro k v hm
    refine lookupKV_mem_nodup hkeys ?_
    rw [hSFperm.mem_iff, hEM]
    exact List.mem_append_left _ hm
  have hid := hlook "id" N.id (by simp)
  have htitle := hlook "title" N.title (by simp)
  have htype := hlook "type" N.note_type.value (by simp)
  have htagsl := hlook "tags" (joinComma (N.tags.map (·.name))) (by simp)
  have hcreated := hlook "created" (isofmt N.created_at) (by simp)
  have hupdated := hlook "updated" (isofmt N.updated_at) (by simp)
  rw [parse_note_from_markdown]
  dsimp only
  rw [hFS]
  dsimp only
  rw [hid]
  dsimp only [Option.getD]
  rw [if_neg (by simpa using hid_ne)]
  rw [htype]
  dsimp only
  rw [NoteType.ofString_value]
  dsimp only
  rw [htagsl]
  dsimp only [Option.getD]
  rw [tags_roundtrip (by
    intro t ht
    rw [List.mem_map] at ht
    obtain ⟨tg, htg, hte⟩ := ht
    rw [← hte]
    exact htags tg htg)]
  rw [tags_name_mk]
  rw [hcreated]
  rw [tsParse, if_neg (by simp [isofmt, natToStr_ne_empty]), fromiso_isofmt]
  dsimp only
  rw [hupdated]
  rw [tsParse, if_neg (by simp [isofmt, natToStr_ne_empty]), fromiso_isofmt]
  dsimp only
  rw [htitle]
  dsimp only [Option.getD]
  by_cases hne : N.links = []
  · rw [exportBody_no_links N hne, hstrip]
    rw [extract_links_no_heading now N.id N.content (no_heading_of_linesContain hnl)]
    rw [hne, List.map_nil]
  · rw [exportBody_with_links N hnl hne, hstrip]
    rw [extract_links_exported now N.id N.content N.links
      (no_heading_of_linesContain hnl) hlinks]
    rfl

/-! ## Re-encoding the decoded note -/

theorem export_eq_of_parts {X N : Note}
    (hid : X.id = N.id) (htit : X.title = N.title) (hty : X.note_type = N.note_type)
    (htg : X.tags = N.tags) (hcr : X.created_at = N.created_at)
    (hup : X.updated_at = N.updated_at)
    (hmp : X.metadata.Perm N.metadata)
    (hmetaX : ∀ p ∈ X.metadata, plainKey p.1 = true ∧ plainValue p.2 = true
        ∧ ¬ reservedKeys.contains p.1 = true ∧ ¬ migrationKeys.contains p.1 = true)
    (hndX : (X.metadata.map Prod.fst).Nodup)
    (hmetaN : ∀ p ∈ N.metadata, plainKey p.1 = true ∧ plainValue p.2 = true
        ∧ ¬ reservedKeys.contains p.1 = true ∧ ¬ migrationKeys.contains p.1 = true)
    (hndN : (N.metadata.map Prod.fst).Nodup)
    (hbody : exportBody X = exportBody N) :
    export_note_to_markdown X = export_note_to_markdown N := by
  rw [export_note_to_markdown, export_note_to_markdown, fmDumps, fmDumps, hbody]
  have hEMX := exportMeta_eq X hmetaX hndX
  have hEMN := exportMeta_eq N hmetaN hndN
  have hperm : (exportMeta X).Perm (exportMeta N) := by
    rw [hEMX, hEMN, hid, htit, hty, htg, hcr, hup]
    exact List.Perm.append_left _ hmp
  have hsorted : List.insertionSort pairLE (exportMeta X)
      = List.insertionSort pairLE (exportMeta N) :=
    List.eq_of_perm_of_sorted
      (((List.perm_insertionSort pairLE _).trans hperm).trans
        (List.perm_insertionSort pairLE _).symm)
      (List.sorted_insertionSort pairLE _) (List.sorted_insertionSort pairLE _)
  rw [hsorted]

theorem filter_nonreserved_base (N : Note) :
    List.filter (fun p => (¬ reservedKeys.contains p.1 : Bool))
      [("id", N.id), ("title", N.title), ("type", N.note_type.value),
        ("tags", joinComma (N.tags.map (·.name))),
        ("created", isofmt N.created_at), ("updated", isofmt N.updated_at)] = [] := by
  rw [List.filter_eq_nil_iff]
  intro a ha
  simp only [List.mem_cons, List.not_mem_nil, or_false] at ha
  rcases ha with h|h|h|h|h|h <;> subst h
  · exact fun hc => of_decide_eq_true
      (show decide ¬(reservedKeys.contains "id" = true) = true from hc) (by decide)
  · exact fun hc => of_decide_eq_true
      (show decide ¬(reservedKeys.contains "title" = true) = true from hc) (by decide)
  · exact fun hc => of_decide_eq_true
      (show decide ¬(reservedKeys.contains "type" = true) = true from hc) (by decide)
  · exact fun hc => of_decide_eq_true
      (show decide ¬(reservedKeys.contains "tags" = true) = true from hc) (by decide)
  · exact fun hc => of_decide_eq_true
      (show decide ¬(reservedKeys.contains "created" = true) = true from hc) (by decide)
  · exact fun hc => of_decide_eq_true
      (show decide ¬(reservedKeys.contains "updated" = true) = true from hc) (by decide)

theorem sorted_filter_perm_meta (N : Note)
    (hmeta : ∀ p ∈ N.metadata, plainKey p.1 = true ∧ plainValue p.2 = true
        ∧ ¬ reservedKeys.contains p.1 = true ∧ ¬ migrationKeys.contains p.1 = true)
    (hnd : (N.metadata.map Prod.fst).Nodup) :
    ((List.insertionSort pairLE (exportMeta N)).filter
      (fun p => ¬ reservedKeys.contains p.1)).Perm N.metadata := by
  have hEM := exportMeta_eq N hmeta hnd
  have h1 := List.Perm.filter (fun p => (¬ reservedKeys.contains p.1 : Bool))
    (List.perm_insertionSort pairLE (exportMeta N))
  have h2 : (exportMeta N).filter (fun p => (¬ reservedKeys.contains p.1 : Bool))
      = N.metadata := by
    rw [hEM, List.filter_append, filter_nonreserved_base, List.nil_append]
    rw [List.filter_eq_self]
    intro a ha
    show decide (¬ reservedKeys.contains a.1 = true) = true
    simp only [decide_eq_true_eq]
    exact (hmeta a ha).2.2.1
  exact h2 ▸ h1

theorem sorted_keys_nodup (N : Note)
    (hmeta : ∀ p ∈ N.metadata, plainKey p.1 = true ∧ plainValue p.2 = true
        ∧ ¬ reservedKeys.contains p.1 = true ∧ ¬ migrationKeys.contains p.1 = true)
    (hnd : (N.metadata.map Prod.fst).Nodup) :
    ((List.insertionSort pairLE (exportMeta N)).map Prod.fst).Nodup := by
  have hEM := exportMeta_eq N hmeta hnd
  refine (List.Perm.nodup_iff
    (List.Perm.map Prod.fst (List.perm_insertionSort pairLE (exportMeta N)))).mpr ?_
  rw [hEM, List.map_append, List.nodup_append]
  refine ⟨show (["id", "title", "type", "tags", "created", "updated"] :
    List String).Nodup from by decide, hnd, ?_⟩
  intro a ha hb
  rw [List.mem_map] at hb
  obtain ⟨p, hp, hpe⟩ := hb
  apply (hmeta p hp).2.2.1
  refine List.elem_iff.mpr ?_
  rw [hpe]
  exact ha

theorem sorted_filter_mem_meta (N : Note)
    (hmeta : ∀ p ∈ N.metadata, plainKey p.1 = true ∧ plainValue p.2 = true
        ∧ ¬ reservedKeys.contains p.1 = true ∧ ¬ migrationKeys.contains p.1 = true)
    (hnd : (N.metadata.map Prod.fst).Nodup) :
    ∀ p ∈ (List.insertionSort pairLE (exportMeta N)).filter
      (fun p => ¬ reservedKeys.contains p.1), p ∈ N.metadata := by
  have hEM := exportMeta_eq N hmeta hnd
  intro p hp
  rw [List.mem_filter] at hp
  obtain ⟨hpSF, hPp⟩ := hp
  have hpEM : p ∈ exportMeta N :=
    (List.Perm.mem_iff (List.perm_insertionSort pairLE (exportMeta N))).mp hpSF
  rw [hEM] at hpEM
  rcases List.mem_append.mp hpEM with hb | hm
  · exfalso
    simp only [List.mem_cons, List.not_mem_nil, or_false] at hb
    rcases hb with h|h|h|h|h|h <;> subst h
    · exact of_decide_eq_true
        (show decide ¬(reservedKeys.contains "id" = true) = true from hPp) (by decide)
    · exact of_decide_eq_true
        (show decide ¬(reservedKeys.contains "title" = true) = true from hPp) (by decide)
    · exact of_decide_eq_true
        (show decide ¬(reservedKeys.contains "type" = true) = true from hPp) (by decide)
    · exact of_decide_eq_true
        (show decide ¬(reservedKeys.contains "tags" = true) = true from hPp) (by decide)
    · exact of_decide_eq_true
        (show decide ¬(reservedKeys.contains "created" = true) = true from hPp) (by decide)
    · exact of_decide_eq_true
        (show decide ¬(reservedKeys.contains "updated" = true) = true from hPp) (by decide)
  · exact hm

/-! ## Claim C2: decode-after-encode field preservation -/

/-- C2 (amended): for a well-formed note (plain header values, plain tag
names, well-formed links, stripped ready content) whose content contains no
Links heading, decoding the encoded text succeeds and yields a note with the
same id, title, note kind and tag list; the outgoing links are preserved in
order and in target and kind, but each decoded link is re-stamped: its source
is the note id, an absent description decodes as `some ""`, and its creation
time becomes the decode time — so the link list is not preserved verbatim. -/
theorem round_trip_decode_fields (now : Nat) (stem : String) (N : Note) (hwf : wfNote N)
    (hnl : linesContain N.content "## Links" = false) :
    ∃ N', (parse_note_from_markdown now ⟨stem, export_note_to_markdown N⟩).1 = some N'
      ∧ N'.id = N.id ∧ N'.title = N.title ∧ N'.note_type = N.note_type
      ∧ N'.tags = N.tags
      ∧ N'.links = N.links.map (fun l =>
          (⟨N.id, l.target_id, l.link_type, some (l.description.getD ""),
            some now⟩ : Link)) := by
  refine ⟨{ id := N.id, title := N.title, content := exportBody N,
              note_type := N.note_type,
              tags := N.tags,
              links := N.links.map (fun l =>
                (⟨N.id, l.target_id, l.link_type, some (l.description.getD ""),
                  some now⟩ : Link)),
              created_at := N.created_at, updated_at := N.updated_at,
              metadata := (List.insertionSort pairLE (exportMeta N)).filter
                (fun p => ¬ reservedKeys.contains p.1) }, ?_, rfl, rfl, rfl, rfl, rfl⟩
  rw [decode_encode_full now stem N hwf hnl]

/-- C2, refuting the claim as stated: a link with an absent description (and
absent creation time) does not decode to itself — the decoded link carries
`some ""` and the decode time — so Decode(Encode(N)) does not return the same
link list. -/
theorem round_trip_decode_fields_counterexample :
    ((parse_note_from_markdown 5 ⟨"f", export_note_to_markdown
        ⟨"a", "T", ["body"], .permanent, [],
          [⟨"a", "b", .reference, none, none⟩], 0, 0, []⟩⟩).1.map Note.id = some "a")
    ∧ ((parse_note_from_markdown 5 ⟨"f", export_note_to_markdown
        ⟨"a", "T", ["body"], .permanent, [],
          [⟨"a", "b", .reference, none, none⟩], 0, 0, []⟩⟩).1.map Note.links
      ≠ some [⟨"a", "b", .reference, none, none⟩]) := by decide

/-- Witness for C2 at a concrete well-formed note. -/
theorem round_trip_decode_fields_witness :
    wfNote ⟨"a", "T", ["body"], .permanent, [⟨"t"⟩],
        [⟨"a", "b", .reference, some "d", none⟩], 3, 4, [("k", "v")]⟩
    ∧ linesContain (["body"] : List String) "## Links" = false
    ∧ ∃ N', (parse_note_from_markdown 7 ⟨"s", export_note_to_markdown
          ⟨"a", "T", ["body"], .permanent, [⟨"t"⟩],
            [⟨"a", "b", .reference, some "d", none⟩], 3, 4, [("k", "v")]⟩⟩).1 = some N'
        ∧ N'.id = "a" ∧ N'.title = "T" ∧ N'.note_type = .permanent ∧ N'.tags = [⟨"t"⟩]
        ∧ N'.links = [⟨"a", "b", .reference, some "d", some 7⟩] :=
  ⟨by decide, by decide,
    round_trip_decode_fields 7 "s"
      ⟨"a", "T", ["body"], .permanent, [⟨"t"⟩],
        [⟨"a", "b", .reference, some "d", none⟩], 3, 4, [("k", "v")]⟩
      (by decide) (by decide)⟩

/-! ## Claim C3: encode-decode-encode idempotence -/

/-- C3 (amended): for a well-formed note (plain header values and tag names,
well-formed links, content stripped and, when links are present, starting and
ending in non-whitespace) whose content contains no Links heading,
re-encoding the decode of the encoded text reproduces the encoded text
exactly; and for any note whose content already contains a Links heading the
encoder appends no generated Links section (the body is just the stripped
content). -/
theorem encode_decode_encode_idempotent (now : Nat) (stem : String) (N : Note)
    (hwf : wfNote N) :
    (linesContain N.content "## Links" = false →
      ∃ N', (parse_note_from_markdown now ⟨stem, export_note_to_markdown N⟩).1 = some N'
        ∧ export_note_to_markdown N' = export_note_to_markdown N)
    ∧ ∀ M : Note, linesContain M.content "## Links" = true →
        exportBody M = stripLines M.content := by
  constructor
  · intro hnl
    have hwf' := hwf
    obtain ⟨hid_pv, hid_ne, htitle_pv, htags, hlinks, hmeta, hnd, hstrip, hready⟩ := hwf'
    refine ⟨{ id := N.id, title := N.title, content := exportBody N,
                note_type := N.note_type, tags := N.tags,
                links := N.links.map (fun l =>
                  (⟨N.id, l.target_id, l.link_type, some (l.description.getD ""),
                    some now⟩ : Link)),
                created_at := N.created_at, updated_at := N.updated_at,
                metadata := (List.insertionSort pairLE (exportMeta N)).filter
                  (fun p => ¬ reservedKeys.contains p.1) }, ?_, ?_⟩
    · rw [decode_encode_full now stem N hwf hnl]
    · refine export_eq_of_parts rfl rfl rfl rfl rfl rfl
        (sorted_filter_perm_meta N hmeta hnd)
        (fun p hp => hmeta p (sorted_filter_mem_meta N hmeta hnd p hp))
        (List.Nodup.sublist (List.Sublist.map Prod.fst (List.filter_sublist _))
          (sorted_keys_nodup N hmeta hnd))
        hmeta hnd ?_
      by_cases hne : N.links = []
      · rw [exportBody]
        dsimp only
        rw [hne, List.map_nil]
        rw [if_neg (fun hc => hc.1 rfl)]
        rw [List.append_nil]
        exact exportBody_strip N hwf hnl
      · have hlc : linesContain (exportBody N) "## Links" = true := by
          rw [exportBody_with_links N hnl hne, linesContain, List.any_eq_true]
          exact ⟨"## Links",
            List.mem_append_left _ (List.mem_append_right _ (by simp)), by decide⟩
        rw [exportBody]
        dsimp only
        rw [if_neg (fun hc => hc.2 hlc)]
        rw [List.append_nil]
        exact exportBody_strip N hwf hnl
  · intro M hM
    rw [exportBody, if_neg (fun hc => hc.2 hM), List.append_nil]

/-- C3, refuting the claim as stated: a note whose content is the blank text
(with a link) has no Links heading, yet Encode(Decode(Encode(N))) differs
from Encode(N) — decoding strips the leading blank lines of the encoded
body, so the re-encode loses them. -/
theorem encode_decode_encode_idempotent_counterexample :
    linesContain ([""] : List String) "## Links" = false
    ∧ (parse_note_from_markdown 0 ⟨"f", export_note_to_markdown
        ⟨"a", "T", [""], .permanent, [], [⟨"a", "b", .reference, none, none⟩],
          0, 0, []⟩⟩).1.isSome = true
    ∧ ((parse_note_from_markdown 0 ⟨"f", export_note_to_markdown
        ⟨"a", "T", [""], .permanent, [], [⟨"a", "b", .reference, none, none⟩],
          0, 0, []⟩⟩).1.map export_note_to_markdown
      ≠ some (export_note_to_markdown
        ⟨"a", "T", [""], .permanent, [], [⟨"a", "b", .reference, none, none⟩],
          0, 0, []⟩)) := by decide

/-- Witness for C3 at a concrete well-formed note. -/
theorem encode_decode_encode_idempotent_witness :
    wfNote ⟨"a", "T", ["body"], .permanent, [],
        [⟨"a", "b", .reference, none, none⟩], 0, 0, []⟩
    ∧ ((linesContain (["body"] : List String) "## Links" = false →
        ∃ N', (parse_note_from_markdown 2 ⟨"w", export_note_to_markdown
            ⟨"a", "T", ["body"], .permanent, [],
              [⟨"a", "b", .reference, none, none⟩], 0, 0, []⟩⟩).1 = some N'
          ∧ export_note_to_markdown N' = export_note_to_markdown
              ⟨"a", "T", ["body"], .permanent, [],
                [⟨"a", "b", .reference, none, none⟩], 0, 0, []⟩)
      ∧ ∀ M : Note, linesContain M.content "## Links" = true →
          exportBody M = stripLines M.content) :=
  ⟨by decide, encode_decode_encode_idempotent 2 "w"
    ⟨"a", "T", ["body"], .permanent, [],
      [⟨"a", "b", .reference, none, none⟩], 0, 0, []⟩ (by decide)⟩

end Zettel
